import Mathlib

set_option maxRecDepth 8192

/-!
Verification development for the client-side batch transcription pipeline.

Shallow embedding of:
* `src/utils/textFormatting.ts`   — the Text Normalizer `formatDictationText`
* `src/services/conversionService.ts` (src/unnamed/part_003) — `needsConversion`, `convertFile`
* `src/services/geminiService.ts` — `transcribeAudioFile` (size gate / result mapping),
  live-session message handling and teardown
* `src/services/storageService.ts` (src/unnamed/part_003) — `saveJobRecord`, `finalizeJob`
* `src/App.tsx` / src/unnamed/part_005 — the Batch Queue Orchestrator
  (queue monitor, `processFile`, `handleRemoveFile`, `handleFilesAdded`)

JavaScript strings are embedded as `List Char` / `String`; the regex pipeline of
`formatDictationText` is reproduced operationally (leftmost, non-overlapping,
case-insensitive whole-word matching with the same rule order as the source).
The orchestrator is embedded as a guarded event-step system whose atomic blocks
are exactly the code's runs between `await` suspension points.
-/

namespace Fmt

/-- ASCII word character, JavaScript regex `\w` = `[A-Za-z0-9_]`. -/
def isWordChar (c : Char) : Bool := c.isAlpha || c.isDigit || c = '_'

/-- JavaScript `\s` restricted to the ASCII whitespace actually reachable here. -/
def isSpaceJS (c : Char) : Bool := c = ' ' || c = '\t' || c = '\n' || c = '\r'

/-- Punctuation class `[.,:;?!]` used by the cleanup regexes. -/
def isPunct (c : Char) : Bool :=
  c = '.' || c = ',' || c = ':' || c = ';' || c = '?' || c = '!'

/-- Case-insensitive literal match of `pat` against a prefix of `s`; returns the
matched source characters and the rest of `s`. -/
def matchCI : List Char → List Char → Option (List Char × List Char)
  | [], s => some ([], s)
  | _ :: _, [] => none
  | p :: ps, c :: cs =>
    if c.toLower = p.toLower then
      match matchCI ps cs with
      | some (m, r) => some (c :: m, r)
      | none => none
    else none

/-- Word boundary `\b` before the match: holds at the string start or after a
non-word character (every pattern here starts with a word character). -/
def boundaryBefore : Option Char → Bool
  | none => true
  | some c => !isWordChar c

/-- Word boundary `\b` after the match: holds at the string end or before a
non-word character (every pattern here ends with a word character). -/
def boundaryAfter : List Char → Bool
  | [] => true
  | c :: _ => !isWordChar c

/-- Try the alternatives in listed order at the current position, as the regex
engine does for an alternation `\b(a1|a2|...)\b`. -/
def tryAlts (alts : List (List Char)) (s : List Char) :
    Option (List Char × List Char) :=
  match alts with
  | [] => none
  | a :: rest =>
    match matchCI a s with
    | some (m, r) => if boundaryAfter r then some (m, r) else tryAlts rest s
    | none => tryAlts rest s

/-- One pass of `str.replace(/\b(alt1|alt2|...)\b/gi, repl)`: scan left to right,
replace each non-overlapping match, continue after the matched source text.
`prev` is the previous character of the ORIGINAL string (boundaries are computed
on the source, replacements do not take part in further matching). -/
def scanRepl (alts : List (List Char)) (repl : List Char → List Char) :
    Nat → Option Char → List Char → List Char
  | _, _, [] => []
  | 0, _, s => s
  | fuel + 1, prev, c :: cs =>
    if boundaryBefore prev then
      match tryAlts alts (c :: cs) with
      | some (m, r) => repl m ++ scanRepl alts repl fuel m.getLast? r
      | none => c :: scanRepl alts repl fuel (some c) cs
    else c :: scanRepl alts repl fuel (some c) cs

/-- Embeds `str.replace(/\b(...)\b/gi, repl)` over the whole string. -/
def replaceWordAll (alts : List String) (repl : List Char → List Char)
    (s : List Char) : List Char :=
  scanRepl (alts.map String.data) repl s.length none s

/-- Rule 1 of `formatDictationText`: the filler alternation, each match replaced
by a single space. -/
def fillerAlts : List String := ["um", "uh", "ah", "like", "you know", "sort of"]

/-- The contraction table, in the source's insertion order. -/
def contractions : List (String × String) :=
  [("i'll", "I will"), ("can't", "cannot"), ("won't", "will not"),
   ("don't", "do not"), ("doesn't", "does not"), ("didn't", "did not"),
   ("couldn't", "could not"), ("shouldn't", "should not"),
   ("wouldn't", "would not"), ("isn't", "is not"), ("aren't", "are not"),
   ("wasn't", "was not"), ("weren't", "were not"), ("hasn't", "has not"),
   ("haven't", "have not"), ("hadn't", "had not"), ("it's", "it is"),
   ("that's", "that is"), ("there's", "there is"), ("who's", "who is"),
   ("what's", "what is"), ("let's", "let us"), ("we're", "we are"),
   ("you're", "you are"), ("they're", "they are"), ("i'm", "I am"),
   ("we've", "we have"), ("you've", "you have"), ("they've", "they have")]

/-- The spoken-command table, in the source's insertion order. -/
def commands : List (String × String) :=
  [("new paragraph", "\n\n"), ("next paragraph", "\n\n"), ("new line", "\n"),
   ("next line", "\n"), ("full stop", "."), ("period", "."), ("comma", ","),
   ("colon", ":"), ("semi-colon", ";"), ("semicolon", ";"),
   ("question mark", "?"), ("exclamation mark", "!"), ("open quote", "\""),
   ("close quote", "\""), ("open bracket", "["), ("close bracket", "]"),
   ("open parenthesis", "("), ("close parenthesis", ")")]

/-- Embeds `value.charAt(0).toUpperCase() + value.slice(1)`. -/
def capFirst : List Char → List Char
  | [] => []
  | c :: cs => c.toUpper :: cs

/-- The contraction replacer: preserve the capitalization of the first letter of
the matched source text (`match[0] === match[0].toUpperCase()`). -/
def contractionRepl (value : List Char) (m : List Char) : List Char :=
  match m with
  | [] => value
  | c :: _ => if c = c.toUpper then capFirst value else value

/-- Rule 4: `formatted.replace(/\s+([.,:;?!])/g, '$1')` — each maximal
whitespace run immediately followed by a punctuation mark is removed. -/
def dropSpaceBeforePunct : Nat → List Char → List Char
  | _, [] => []
  | 0, s => s
  | fuel + 1, c :: cs =>
    if isSpaceJS c then
      let rest := (c :: cs).dropWhile isSpaceJS
      match rest with
      | p :: rs =>
        if isPunct p then p :: dropSpaceBeforePunct fuel rs
        else ((c :: cs).takeWhile isSpaceJS) ++ dropSpaceBeforePunct fuel rest
      | [] => (c :: cs).takeWhile isSpaceJS
    else c :: dropSpaceBeforePunct fuel cs

/-- Rule 5: `formatted.replace(/([.,:;?!])(?=[A-Za-z])/g, '$1 ')` — insert one
space after a punctuation mark immediately followed by a letter. -/
def spaceAfterPunct : List Char → List Char
  | [] => []
  | [c] => [c]
  | c :: d :: rest =>
    if isPunct c && d.isAlpha then c :: ' ' :: spaceAfterPunct (d :: rest)
    else c :: spaceAfterPunct (d :: rest)

/-- Rule 6: `formatted.replace(/[ \t]+/g, ' ')`. -/
def collapseSpaces : Nat → List Char → List Char
  | _, [] => []
  | 0, s => s
  | fuel + 1, c :: cs =>
    if c = ' ' || c = '\t' then
      ' ' :: collapseSpaces fuel ((c :: cs).dropWhile (fun x => x = ' ' || x = '\t'))
    else c :: collapseSpaces fuel cs

/-- Rule 7: `formatted.trim()`. -/
def trimJS (s : List Char) : List Char :=
  ((s.dropWhile isSpaceJS).reverse.dropWhile isSpaceJS).reverse

/-- Embeds `formatDictationText` from `src/utils/textFormatting.ts`: the Text
Normalizer. Empty/falsy input is returned unchanged; otherwise the seven rules
run in the source's fixed order. -/
def formatDictationText (text : String) : String :=
  if text = "" then text
  else
    let s1 := replaceWordAll fillerAlts (fun _ => [' ']) text.data
    let s2 := contractions.foldl
      (fun acc kv => replaceWordAll [kv.1] (contractionRepl kv.2.data) acc) s1
    let s3 := commands.foldl
      (fun acc kv => replaceWordAll [kv.1] (fun _ => kv.2.data) acc) s2
    let s4 := dropSpaceBeforePunct s3.length s3
    let s5 := spaceAfterPunct s4
    let s6 := collapseSpaces s5.length s5
    String.mk (trimJS s6)

end Fmt

namespace Conv

/-- Embeds `needsConversion` from the conversion service: case-insensitive test of the
fixed proprietary-extension suffix regex `/\.(dss|ds2|waptt)$/i`. -/
def needsConversion (filename : String) : Bool :=
  let r := (filename.data.map Char.toLower).reverse
  ([".dss", ".ds2", ".waptt"] : List String).any
    (fun suf => r.take suf.length = suf.data.reverse)

/-- Outcome of the promise executor of `convertFile`. -/
inductive PromiseOutcome where
  | resolved
  | rejected
  | pending
deriving DecidableEq, Repr

/-- The interval callback loop of `convertFile`: each tick adds 5 to the
progress, reports it, and resolves once progress reaches 100. The `reject`
callback is never invoked anywhere in the executor body, so the `rejected`
outcome has no producing branch. Fuel bounds the number of ticks. -/
def convertLoop : Nat → Nat → List Nat × PromiseOutcome
  | 0, _ => ([], .pending)
  | fuel + 1, p =>
    let p' := p + 5
    if p' ≥ 100 then ([p'], .resolved)
    else
      let (rs, o) := convertLoop fuel p'
      (p' :: rs, o)

/-- The progress values `convertFile` reports through `onProgress`. -/
def convertFileReports : List Nat := (convertLoop 20 0).1

/-- How the promise returned by `convertFile` settles. -/
def convertFileOutcome : PromiseOutcome := (convertLoop 20 0).2

end Conv

namespace Gem

/-- The fixed 20 MiB size limit of `transcribeAudioFile`. -/
def MAX_UPLOAD_BYTES : Nat := 20 * 1024 * 1024

/-- The size-limit error message thrown before the model call. -/
def sizeLimitMsg : String :=
  "File is too large for browser-based processing. Please use files under 20MB."

/-- The generic fallback used when a thrown error carries no message. -/
def genericTranscribeErrMsg : String := "Failed to transcribe audio."

/-- The placeholder returned when the service yields empty content. -/
def emptyTranscriptPlaceholder : String := "No transcription generated."

/-- What the remote `generateContent` call would do, as seen by the client. -/
inductive NetBehavior where
  | ok (text : Option String)
  | fail (msg : Option String)
deriving DecidableEq, Repr

/-- Embeds `transcribeAudioFile` from `src/services/geminiService.ts`, as a function of
the input size and the remote behavior. The returned Bool records whether the
network call `ai.models.generateContent` was reached. The size gate runs after
the local base64 read but before any network call; the catch block rewraps
errors as `new Error(error.message || "Failed to transcribe audio.")`, and a
successful response is mapped through `response.text || placeholder`. -/
def transcribeAudioFile (fileSize : Nat) (net : NetBehavior) :
    Except String String × Bool :=
  if fileSize > MAX_UPLOAD_BYTES then
    (.error sizeLimitMsg, false)
  else
    match net with
    | .ok t =>
      (.ok (match t with
            | some s => if s = "" then emptyTranscriptPlaceholder else s
            | none => emptyTranscriptPlaceholder), true)
    | .fail m =>
      (.error (match m with
               | some s => if s = "" then genericTranscribeErrMsg else s
               | none => genericTranscribeErrMsg), true)

end Gem

namespace Store

/-- User roles from `src/types` (storage variant). -/
inductive UserRole where
  | SUPERADMIN
  | DOCTOR
  | TYPIST
deriving DecidableEq, Repr

/-- The slice of the `User` record that `saveJobRecord` reads. -/
structure UserRec where
  id : String
  username : String
  fullName : String
  role : UserRole
deriving DecidableEq, Repr

/-- Workflow status of a `JobRecord`. -/
inductive JobStatus where
  | PENDING
  | ASSIGNED
  | FINALIZED
deriving DecidableEq, Repr

/-- Embeds `JobRecord` from the storage service. -/
structure JobRecord where
  id : String
  jobNumber : String
  userId : String
  userName : String
  fileName : String
  uploadDate : Nat
  audioLengthSeconds : Nat
  charCountWithSpaces : Nat
  wordCount : Nat
  status : JobStatus
  assignedTypistId : Option String := none
  assignedTypistName : Option String := none
  originalTranscript : String
  finalTranscript : String
deriving DecidableEq, Repr

/-- Embeds `LearningEntry` from the storage service. -/
structure LearningEntry where
  id : String
  originalSnippet : String
  correctedSnippet : String
  timestamp : Nat
deriving DecidableEq, Repr

/-- The browser-storage state the storage service mutates. -/
structure Storage where
  jobs : List JobRecord
  learning : List LearningEntry
deriving DecidableEq, Repr

/-- Exact prefix test used by the substring scan below. -/
def isSubPrefix : List Char → List Char → Bool
  | [], _ => true
  | _ :: _, [] => false
  | a :: as, b :: bs => a = b && isSubPrefix as bs

/-- JavaScript `s.includes(sub)`. -/
def listIncludes : List Char → List Char → Bool
  | [], sub => sub.isEmpty
  | c :: cs, sub => isSubPrefix sub (c :: cs) || listIncludes cs sub

/-- JavaScript `s.includes(sub)` on strings. -/
def strIncludes (s sub : String) : Bool := listIncludes s.data sub.data

/-- Embeds `String(n).padStart(3, '0')`. -/
def pad3 (n : Nat) : String :=
  let s := toString n
  if s.length ≥ 3 then s else String.mk (List.replicate (3 - s.length) '0' ++ s.data)

/-- Number of maximal whitespace runs in a character list. -/
def countSpaceRuns : Nat → List Char → Nat
  | _, [] => 0
  | 0, _ => 0
  | fuel + 1, c :: cs =>
    if Fmt.isSpaceJS c then
      1 + countSpaceRuns fuel ((c :: cs).dropWhile Fmt.isSpaceJS)
    else countSpaceRuns fuel cs

/-- Embeds `transcript.trim().split(/\s+/).length`: splitting a trimmed string on
whitespace runs yields one more segment than there are runs (and `""` splits to
`[""]`, length 1). -/
def wordCountJS (s : String) : Nat :=
  let t := Fmt.trimJS s.data
  countSpaceRuns t.length t + 1

/-- Embeds `saveJobRecord(user, fileName, transcript, audioLengthSeconds)` from the
storage service. The function declares exactly these four data parameters; the
job's owning user is always `user.id` / `user.fullName`. `newId` stands for the
generated uuid, `dateStr` for `new Date().toISOString().slice(0,10)` with the
dashes removed, and `now` for `Date.now()`. Returns the new record and the
updated job list (`jobs.push(newJob)`). -/
def saveJobRecord (user : UserRec) (fileName transcript : String)
    (audioLengthSeconds : Nat) (newId dateStr : String) (now : Nat)
    (jobs : List JobRecord) : JobRecord × List JobRecord :=
  let dailyCount := (jobs.filter (fun j => strIncludes j.jobNumber dateStr)).length + 1
  let jobNumber := "JOB-" ++ dateStr ++ "-" ++ pad3 dailyCount
  let newJob : JobRecord :=
    { id := newId
      jobNumber := jobNumber
      userId := user.id
      userName := user.fullName
      fileName := fileName
      uploadDate := now
      audioLengthSeconds := audioLengthSeconds
      charCountWithSpaces := transcript.length
      wordCount := wordCountJS transcript
      status := .PENDING
      originalTranscript := transcript
      finalTranscript := transcript }
  (newJob, jobs ++ [newJob])

/-- The in-place update loop of `finalizeJob`: find the first job whose id
matches (`jobs.findIndex`), overwrite its final transcript, status and character
count, and report its ORIGINAL transcript (`jobs[index].originalTranscript`,
with the source's `|| ""` being the identity on the string-valued field).
Returns the updated list and `none` when no job matched (`index === -1`). -/
def finalizeJobs : List JobRecord → String → String → List JobRecord × Option String
  | [], _, _ => ([], none)
  | j :: rest, jobId, finalText =>
    if j.id = jobId then
      ({ j with finalTranscript := finalText, status := .FINALIZED,
                charCountWithSpaces := finalText.length } :: rest,
       some j.originalTranscript)
    else
      (j :: (finalizeJobs rest jobId finalText).1,
       (finalizeJobs rest jobId finalText).2)

/-- Embeds `finalizeJob(jobId, finalText)` from the storage service: update the job,
then push a `LearningEntry` exactly when the original transcript differs from
the finalize text (snippets truncated to 100 characters). `entryId` and `ts`
stand for the generated uuid and `Date.now()`. -/
def finalizeJob (jobId finalText entryId : String) (ts : Nat) (st : Storage) :
    Storage :=
  match (finalizeJobs st.jobs jobId finalText).2 with
  | none => st
  | some original =>
    if original ≠ finalText then
      { jobs := (finalizeJobs st.jobs jobId finalText).1
        learning := st.learning ++
          [{ id := entryId
             originalSnippet := String.mk (original.data.take 100)
             correctedSnippet := String.mk (finalText.data.take 100)
             timestamp := ts }] }
    else { jobs := (finalizeJobs st.jobs jobId finalText).1, learning := st.learning }

/-- The original transcript of the first job matching `jobId`, if any. -/
def findOriginal : List JobRecord → String → Option String
  | [], _ => none
  | j :: rest, jobId =>
    if j.id = jobId then some j.originalTranscript else findOriginal rest jobId

/-- The first job matching `jobId`, if any (`jobs.findIndex` resolves to the
first match). -/
def findJob : List JobRecord → String → Option JobRecord
  | [], _ => none
  | j :: rest, jobId =>
    if j.id = jobId then some j else findJob rest jobId

end Store

namespace Batch

/-- Embeds `FileStatus` from `src/types.ts`. -/
inductive FileStatus where
  | QUEUED
  | CONVERTING
  | READY_TO_TRANSCRIBE
  | TRANSCRIBING
  | COMPLETED
  | ERROR
deriving DecidableEq, Repr

/-- Embeds `BatchFile` from `src/types.ts`, plus the `ownerId` the part_005 variant of
the app attaches for admin uploads. The file handle itself is represented by
its size. -/
structure BatchFile where
  id : Nat
  fileName : String
  fileSize : Nat
  durationSeconds : Nat
  status : FileStatus
  progress : Nat
  transcript : String
  error : Option String := none
  createdAt : Nat
  ownerId : Option String := none
deriving DecidableEq, Repr

/-- The active-state test of the queue monitor's filter. -/
def isActiveStatus : FileStatus → Bool
  | .CONVERTING => true
  | .TRANSCRIBING => true
  | _ => false

/-- Embeds `MAX_CONCURRENT_UPLOADS` from `src/App.tsx`. -/
def MAX_CONCURRENT_UPLOADS : Nat := 3

/-- Embeds `files.filter(f => f.status === CONVERTING || f.status === TRANSCRIBING).length`. -/
def activeJobs (files : List BatchFile) : Nat :=
  (files.filter (fun f => isActiveStatus f.status)).length

/-- Embeds `files.filter(f => f.status === QUEUED)`. -/
def queuedJobs (files : List BatchFile) : List BatchFile :=
  files.filter (fun f => decide (f.status = .QUEUED))

/-- Embeds `prev.map(f => f.id === fileId ? g(f) : f)` — the shape of every `setFiles`
update in `processFile` and `handleFilesAdded`. -/
def updFile (files : List BatchFile) (id : Nat) (g : BatchFile → BatchFile) :
    List BatchFile :=
  files.map (fun f => if f.id = id then g f else f)

/-- Embeds `prev.filter(f => f.id !== id)` — `handleRemoveFile`. -/
def removeFile (files : List BatchFile) (id : Nat) : List BatchFile :=
  files.filter (fun f => decide (f.id ≠ id))

/-- The transcription-success `setFiles` update of `processFile`. -/
def applyTranscribeOk (files : List BatchFile) (id : Nat) (t : String) :
    List BatchFile :=
  updFile files id
    (fun f => { f with status := .COMPLETED, transcript := t, progress := 100 })

/-- The transcription-failure `setFiles` update of `processFile` (progress is
left untouched by this branch). -/
def applyTranscribeErr (files : List BatchFile) (id : Nat) (msg : String) :
    List BatchFile :=
  updFile files id (fun f => { f with status := .ERROR, error := some msg })

/-- What the UI submits for one new file in `handleFilesAdded`. -/
structure NewFileInfo where
  id : Nat
  fileName : String
  fileSize : Nat
  createdAt : Nat
  ownerId : Option String := none
deriving DecidableEq, Repr

/-- The `BatchFile` literal `handleFilesAdded` builds for a submitted file. -/
def mkBatchFile (nf : NewFileInfo) : BatchFile :=
  { id := nf.id, fileName := nf.fileName, fileSize := nf.fileSize,
    durationSeconds := 0, status := .QUEUED, progress := 0, transcript := "",
    error := none, createdAt := nf.createdAt, ownerId := nf.ownerId }

/-- Orchestrator state: the shared file list, the queue-active flag, the ids
with an outstanding conversion / transcription promise, and every id ever
issued (ids are opaque and unique for an item's lifetime). -/
structure Sys where
  files : List BatchFile
  isQueueActive : Bool
  pendingConv : List Nat
  pendingTrans : List Nat
  usedIds : List Nat
deriving DecidableEq, Repr

/-- The initial state of the app. -/
def initSys : Sys :=
  { files := [], isQueueActive := false, pendingConv := [], pendingTrans := [],
    usedIds := [] }

/-- The atomic blocks of the orchestrator, one per run between suspension
points (conversion progress ticks, the conversion and transcription promises,
the duration probe). -/
inductive Event where
  | addFiles (fs : List NewFileInfo)
  | startQueue
  | startNext
  | durationResolved (id : Nat) (d : Nat)
  | convProgress (id : Nat) (p : Nat)
  | convertDone (id : Nat)
  | convertFail (id : Nat)
  | transTick (id : Nat) (r : Nat)
  | transcribeOk (id : Nat) (text : String)
  | transcribeErr (id : Nat) (msg : String)
  | remove (id : Nat)
deriving DecidableEq, Repr

/-- One guarded step of the orchestrator. `none` means the event cannot fire in
this state.

* `addFiles`: `handleFilesAdded` appends fresh QUEUED items and activates the
  queue.
* `startNext`: one run of the queue-monitor effect; fires only when the queue is
  active, a slot is free and an item is queued; the first queued item enters
  CONVERTING (files needing conversion) or TRANSCRIBING, with progress 0, and
  its promise becomes outstanding. The intermediate READY_TO_TRANSCRIBE update
  of `processFile` happens in the same synchronous block as the TRANSCRIBING
  update, so it is never observable at a suspension point.
* `convertDone` / `convertFail`: the conversion promise settles; the failure
  arm requires the promise to have rejected, which `convertFile`'s executor
  never does.
* `transTick`: the cosmetic 800 ms progress interval.
* `transcribeOk` / `transcribeErr`: the transcription promise settles; both
  handlers are id-keyed maps over the current list.
* `remove`: `handleRemoveFile`. -/
def step : Event → Sys → Option Sys
  | .addFiles fs, s =>
    if (fs.map (fun nf => nf.id)).Nodup ∧ ∀ nf ∈ fs, nf.id ∉ s.usedIds then
      some { s with files := s.files ++ fs.map mkBatchFile,
                    isQueueActive := true,
                    usedIds := s.usedIds ++ fs.map (fun nf => nf.id) }
    else none
  | .startQueue, s => some { s with isQueueActive := true }
  | .startNext, s =>
    if s.isQueueActive = true ∧ activeJobs s.files < MAX_CONCURRENT_UPLOADS then
      match queuedJobs s.files with
      | [] => none
      | next :: _ =>
        if Conv.needsConversion next.fileName then
          some { s with
            files := updFile s.files next.id
              (fun f => { f with status := .CONVERTING, progress := 0 })
            pendingConv := next.id :: s.pendingConv }
        else
          some { s with
            files := updFile s.files next.id
              (fun f => { f with status := .TRANSCRIBING, progress := 0 })
            pendingTrans := next.id :: s.pendingTrans }
    else none
  | .durationResolved id d, s =>
    some { s with files := updFile s.files id (fun f => { f with durationSeconds := d }) }
  | .convProgress id p, s =>
    if id ∈ s.pendingConv ∧ p ∈ Conv.convertFileReports then
      some { s with files := updFile s.files id (fun f => { f with progress := p }) }
    else none
  | .convertDone id, s =>
    if id ∈ s.pendingConv ∧ Conv.convertFileOutcome = .resolved then
      some { s with
        files := updFile s.files id
          (fun f => { f with status := .TRANSCRIBING, progress := 0 })
        pendingConv := s.pendingConv.erase id
        pendingTrans := id :: s.pendingTrans }
    else none
  | .convertFail id, s =>
    if id ∈ s.pendingConv ∧ Conv.convertFileOutcome = .rejected then
      some { s with
        files := updFile s.files id
          (fun f => { f with status := .ERROR, error := some "Conversion Failed" })
        pendingConv := s.pendingConv.erase id }
    else none
  | .transTick id r, s =>
    if id ∈ s.pendingTrans ∧ r < 3 then
      some { s with files := (s.files.map
        (fun f => if f.id = id ∧ f.status = .TRANSCRIBING then
            { f with progress := min (f.progress + r + 1) 90 } else f)) }
    else none
  | .transcribeOk id text, s =>
    if id ∈ s.pendingTrans then
      some { s with files := applyTranscribeOk s.files id text
                    pendingTrans := s.pendingTrans.erase id }
    else none
  | .transcribeErr id msg, s =>
    if id ∈ s.pendingTrans then
      some { s with files := applyTranscribeErr s.files id msg
                    pendingTrans := s.pendingTrans.erase id }
    else none
  | .remove id, s =>
    some { s with files := removeFile s.files id }

/-- Embeds `s'` is reachable from `s` by some event sequence. -/
def Reaches (s s' : Sys) : Prop :=
  Relation.ReflTransGen (fun a b => ∃ e, step e a = some b) s s'

/-- Reachable from the initial app state. -/
def Reachable (s : Sys) : Prop := Reaches initSys s

end Batch

namespace Live

/-- Where the `connect()` coroutine currently is. -/
inductive LivePhase where
  | idle
  | awaitingMic
  | connected
  | failed
deriving DecidableEq, Repr

/-- State of one `LiveDictationSession` plus the microphone tracks ever handed
out by `getUserMedia` (id, active flag). -/
structure LiveSys where
  phase : LivePhase
  ctx : Bool
  audioStream : Option Nat
  sessionSet : Bool
  tracks : List (Nat × Bool)
deriving DecidableEq, Repr

/-- A fresh session. -/
def initLive : LiveSys :=
  { phase := .idle, ctx := false, audioStream := none, sessionSet := false,
    tracks := [] }

/-- Embeds `connect()` up to its suspension point: the AudioContext is created
synchronously, then the coroutine awaits `getUserMedia`. -/
def connectStart (s : LiveSys) : Option LiveSys :=
  if s.phase = .idle then some { s with phase := .awaitingMic, ctx := true }
  else none

/-- The `getUserMedia` promise resolves: the continuation stores the new stream
in `this.audioStream`, calls `ai.live.connect` and stores the session promise —
one synchronous block, after which `connect()` resolves. The resolution is not
cancelled by an earlier `disconnect()`. -/
def micResolve (s : LiveSys) : Option LiveSys :=
  if s.phase = .awaitingMic then
    let tid := s.tracks.length
    some { s with phase := .connected, tracks := s.tracks ++ [(tid, true)],
                  audioStream := some tid, sessionSet := true }
  else none

/-- The `getUserMedia` promise rejects (permission denied): the catch block
reports the error and the session stays disconnected. -/
def micReject (s : LiveSys) : Option LiveSys :=
  if s.phase = .awaitingMic then some { s with phase := .failed }
  else none

/-- Embeds `disconnect()`: close the session if one is set, stop every track of the
stream currently held in `this.audioStream` (optional chaining — a null stream
stops nothing), close the context, null the fields. Total, hence never throws;
it does not interact with the still-running `connect()` coroutine. -/
def disconnect (s : LiveSys) : LiveSys :=
  { s with
    tracks := s.tracks.map (fun t => if some t.1 = s.audioStream then (t.1, false) else t)
    audioStream := none
    sessionSet := false
    ctx := false }

/-- Does any microphone track remain active? -/
def anyActiveTrack (s : LiveSys) : Bool := s.tracks.any (fun t => t.2)

/-- The `onmessage` callback of the live session: a non-empty partial
transcript fragment is passed through the Text Normalizer
(`formatDictationText`) before delivery; a turn-complete signal is delivered
as an empty final marker. Returns the `onTranscription` calls it makes. -/
def liveHandleMessage (inputTranscription : Option String) (turnComplete : Bool) :
    List (String × Bool) :=
  (match inputTranscription with
   | some t => if t = "" then [] else [(Fmt.formatDictationText t, false)]
   | none => []) ++ (if turnComplete then [("", true)] else [])

end Live

namespace App

/-- The `saveJobRecord` call in the part_005 `processFile` success branch. The
caller passes `file.ownerId` as a fifth argument (commented "Pass the explicit
owner ID if it exists (for Admin uploads)"), but `saveJobRecord` declares only
the four data parameters, so JavaScript silently drops the extra argument; the
source's `file.durationSeconds || 0` is the identity on the numeric field. -/
def processFileSaveJob (currentUser : Store.UserRec) (file : Batch.BatchFile)
    (transcript : String) (newId dateStr : String) (now : Nat)
    (jobs : List Store.JobRecord) : Store.JobRecord × List Store.JobRecord :=
  Store.saveJobRecord currentUser file.fileName transcript file.durationSeconds
    newId dateStr now jobs

end App

/-- Example submission for the C1 witness. -/
def nfW1 : Batch.NewFileInfo :=
  { id := 1, fileName := "a.mp3", fileSize := 4, createdAt := 0 }

/-- The C1 witness item as created by `handleFilesAdded`. -/
def bfW1 : Batch.BatchFile := Batch.mkBatchFile nfW1

/-- The C1 witness item once admitted to TRANSCRIBING. -/
def bfW1t : Batch.BatchFile := { bfW1 with status := .TRANSCRIBING }

/-- State after submitting `nfW1` to the fresh app. -/
def sysW1 : Batch.Sys :=
  { files := [bfW1], isQueueActive := true, pendingConv := [],
    pendingTrans := [], usedIds := [1] }

/-- State after the queue monitor admits the single queued item. -/
def sysW2 : Batch.Sys :=
  { files := [bfW1t], isQueueActive := true, pendingConv := [],
    pendingTrans := [1], usedIds := [1] }

/-- Example submissions for the C8 witness. -/
def nfW8a : Batch.NewFileInfo :=
  { id := 1, fileName := "first.mp3", fileSize := 4, createdAt := 0 }

/-- Second submission for the C8 witness. -/
def nfW8b : Batch.NewFileInfo :=
  { id := 2, fileName := "second.mp3", fileSize := 4, createdAt := 1 }

/-- The two C8 witness items. -/
def bfW8a : Batch.BatchFile := Batch.mkBatchFile nfW8a

/-- The later-submitted C8 witness item. -/
def bfW8b : Batch.BatchFile := Batch.mkBatchFile nfW8b

/-- State after submitting both C8 witness items. -/
def sysW8 : Batch.Sys :=
  { files := [bfW8a, bfW8b], isQueueActive := true, pendingConv := [],
    pendingTrans := [], usedIds := [1, 2] }

/-- State after the queue monitor admits the first C8 witness item. -/
def sysW8' : Batch.Sys :=
  { files := [{ bfW8a with status := .TRANSCRIBING }, bfW8b],
    isQueueActive := true, pendingConv := [], pendingTrans := [1],
    usedIds := [1, 2] }

/-- Example submission for the C2 counterexample. -/
def nfC2 : Batch.NewFileInfo :=
  { id := 7, fileName := "note.mp3", fileSize := 4, createdAt := 0 }

/-- State after submitting `nfC2`. -/
def sysC2a : Batch.Sys :=
  { files := [Batch.mkBatchFile nfC2], isQueueActive := true,
    pendingConv := [], pendingTrans := [], usedIds := [7] }

/-- State after admitting the C2 item to TRANSCRIBING. -/
def sysC2b : Batch.Sys :=
  { files := [{ Batch.mkBatchFile nfC2 with status := .TRANSCRIBING }],
    isQueueActive := true, pendingConv := [], pendingTrans := [7],
    usedIds := [7] }

/-- The completed C2 item carrying the raw (unnormalized) service text. -/
def bfC2c : Batch.BatchFile :=
  { Batch.mkBatchFile nfC2 with
    status := .COMPLETED
    transcript := "um hello period"
    progress := 100 }

/-- State after the transcription promise resolves with raw text containing a
filler and a spoken command. -/
def sysC2c : Batch.Sys :=
  { files := [bfC2c], isQueueActive := true, pendingConv := [],
    pendingTrans := [], usedIds := [7] }

/-- A pending job for the C3 finalize scenario: original transcript "a". -/
def jobC3 : Store.JobRecord :=
  { id := "j1", jobNumber := "JOB-20260101-001", userId := "doctor-1",
    userName := "Dr. Smith", fileName := "f.mp3", uploadDate := 0,
    audioLengthSeconds := 3, charCountWithSpaces := 1, wordCount := 1,
    status := .PENDING, originalTranscript := "a", finalTranscript := "a" }

/-- Storage holding just `jobC3` and no learning entries. -/
def stC3 : Store.Storage := { jobs := [jobC3], learning := [] }

/-- The admin user of the C6 scenario. -/
def userC6 : Store.UserRec :=
  { id := "admin-1", username := "admin", fullName := "System Administrator",
    role := .SUPERADMIN }

/-- A batch item uploaded by the admin on behalf of doctor-1
(`ownerId = "doctor-1"`). -/
def fileC6 : Batch.BatchFile :=
  { id := 3, fileName := "visit.mp3", fileSize := 9, durationSeconds := 30,
    status := .COMPLETED, progress := 100, transcript := "Patient is stable.",
    error := none, createdAt := 0, ownerId := some "doctor-1" }

/-- Live-session state right after `connect()` starts, awaiting `getUserMedia`. -/
def liveW1 : Live.LiveSys :=
  { phase := .awaitingMic, ctx := true, audioStream := none,
    sessionSet := false, tracks := [] }

/-- Final live-session state of the leak run: `connect()`'s continuation stored
the freshly acquired stream after `disconnect()` had already run. -/
def liveW3 : Live.LiveSys :=
  { phase := .connected, ctx := false, audioStream := some 0,
    sessionSet := true, tracks := [(0, true)] }

namespace Batch

theorem countP_map_eq {α : Type} (p : α → Bool) (h : α → α) :
    ∀ l : List α, (∀ a ∈ l, p (h a) = p a) → (l.map h).countP p = l.countP p := by
  intro l
  induction l with
  | nil => intro _; rfl
  | cons a t ih =>
    intro hall
    simp only [List.map_cons, List.countP_cons]
    rw [ih (fun x hx => hall x (List.mem_cons_of_mem a hx)),
        hall a (List.mem_cons_self a t)]

theorem countP_map_le {α : Type} (p : α → Bool) (h : α → α) :
    ∀ l : List α, (∀ a ∈ l, p (h a) = true → p a = true) →
      (l.map h).countP p ≤ l.countP p := by
  intro l
  induction l with
  | nil => intro _; exact Nat.le_refl _
  | cons a t ih =>
    intro hall
    simp only [List.map_cons, List.countP_cons]
    have h1 : (t.map h).countP p ≤ t.countP p :=
      ih (fun x hx => hall x (List.mem_cons_of_mem a hx))
    by_cases hpa : p (h a) = true
    · have h2 := hall a (List.mem_cons_self a t) hpa
      rw [if_pos hpa, if_pos h2]
      omega
    · rw [if_neg hpa]
      by_cases hpb : p a = true
      · rw [if_pos hpb]; omega
      · rw [if_neg hpb]; omega

theorem countP_filter_le {α : Type} (p q : α → Bool) :
    ∀ l : List α, (l.filter q).countP p ≤ l.countP p := by
  intro l
  induction l with
  | nil => exact Nat.le_refl _
  | cons a t ih =>
    simp only [List.filter_cons]
    by_cases hq : q a = true
    · simp only [hq, if_true, List.countP_cons]
      omega
    · simp only [Bool.not_eq_true] at hq
      simp only [hq, Bool.false_eq_true, if_false, List.countP_cons]
      omega

theorem activeJobs_eq_countP (l : List BatchFile) :
    activeJobs l = l.countP (fun f => isActiveStatus f.status) :=
  (List.countP_eq_length_filter _ _).symm

theorem updFile_eq_of_forall_ne {l : List BatchFile} {id : Nat}
    (g : BatchFile → BatchFile) (h : ∀ f ∈ l, f.id ≠ id) : updFile l id g = l := by
  induction l with
  | nil => rfl
  | cons a t ih =>
    simp only [updFile, List.map_cons]
    rw [if_neg (h a (List.mem_cons_self a t))]
    have : updFile t id g = t := ih (fun f hf => h f (List.mem_cons_of_mem a hf))
    simp only [updFile] at this
    rw [this]

theorem map_ids_of_preserve {h : BatchFile → BatchFile}
    (hp : ∀ f, (h f).id = f.id) :
    ∀ l : List BatchFile, (l.map h).map (fun f => f.id) = l.map (fun f => f.id) := by
  intro l
  induction l with
  | nil => rfl
  | cons a t ih => simp only [List.map_cons, hp, ih]

theorem updFile_map_ids {l : List BatchFile} {id : Nat} {g : BatchFile → BatchFile}
    (hg : ∀ f, (g f).id = f.id) :
    (updFile l id g).map (fun f => f.id) = l.map (fun f => f.id) := by
  apply map_ids_of_preserve
  intro f
  by_cases hf : f.id = id
  · simp [hf, hg]
  · simp [hf]

theorem countP_updFile_le_succ (l : List BatchFile) (id : Nat)
    (g : BatchFile → BatchFile) (p : BatchFile → Bool)
    (hnd : (l.map (fun f => f.id)).Nodup) :
    (updFile l id g).countP p ≤ l.countP p + 1 := by
  induction l with
  | nil => exact Nat.le_succ 0
  | cons a t ih =>
    simp only [List.map_cons, List.nodup_cons] at hnd
    show List.countP p ((if a.id = id then g a else a) :: updFile t id g) ≤
      List.countP p (a :: t) + 1
    rw [List.countP_cons, List.countP_cons]
    by_cases ha : a.id = id
    · have ht : updFile t id g = t := by
        apply updFile_eq_of_forall_ne
        intro f hf hfid
        apply hnd.1
        have hmem : f.id ∈ t.map (fun f => f.id) := List.mem_map_of_mem _ hf
        rwa [hfid, ← ha] at hmem
      rw [ht, if_pos ha]
      split <;> split <;> omega
    · rw [if_neg ha]
      have h1 := ih hnd.2
      split <;> omega

theorem mem_updFile {l : List BatchFile} {id : Nat} {g : BatchFile → BatchFile}
    {f' : BatchFile} (h : f' ∈ updFile l id g) :
    ∃ f ∈ l, f' = if f.id = id then g f else f := by
  simp only [updFile, List.mem_map] at h
  obtain ⟨f, hf, hf'⟩ := h
  exact ⟨f, hf, hf'.symm⟩

theorem eq_of_mem_of_id_eq {l : List BatchFile}
    (hnd : (l.map (fun f => f.id)).Nodup) {a b : BatchFile}
    (ha : a ∈ l) (hb : b ∈ l) (hid : a.id = b.id) : a = b :=
  List.inj_on_of_nodup_map hnd ha hb hid

end Batch

namespace Batch

/-- The inductive invariant of the orchestrator: ids are unique and drawn from
the issued pool, every id with an outstanding conversion (resp. transcription)
promise labels an item currently CONVERTING (resp. TRANSCRIBING), at most one
promise is outstanding per id, and the concurrency bound holds. -/
structure Inv (s : Sys) : Prop where
  nodupIds : (s.files.map (fun f => f.id)).Nodup
  filesUsed : ∀ f ∈ s.files, f.id ∈ s.usedIds
  convStatus : ∀ i ∈ s.pendingConv, ∀ f ∈ s.files, f.id = i → f.status = .CONVERTING
  transStatus : ∀ i ∈ s.pendingTrans, ∀ f ∈ s.files, f.id = i → f.status = .TRANSCRIBING
  pendNodup : (s.pendingConv ++ s.pendingTrans).Nodup
  convUsed : ∀ i ∈ s.pendingConv, i ∈ s.usedIds
  transUsed : ∀ i ∈ s.pendingTrans, i ∈ s.usedIds
  bound : activeJobs s.files ≤ MAX_CONCURRENT_UPLOADS

theorem inv_init : Inv initSys := by
  refine ⟨?_, ?_, ?_, ?_, ?_, ?_, ?_, ?_⟩ <;>
    simp [initSys, activeJobs, MAX_CONCURRENT_UPLOADS]

theorem updFile_mem_of_ne {l : List BatchFile} {i : Nat} {g : BatchFile → BatchFile}
    {f' : BatchFile} (hf' : f' ∈ updFile l i g) (hne : f'.id ≠ i)
    (hid : ∀ f, (g f).id = f.id) : f' ∈ l := by
  obtain ⟨f, hf, he⟩ := mem_updFile hf'
  by_cases hfi : f.id = i
  · rw [if_pos hfi] at he
    exfalso
    apply hne
    rw [he, hid, hfi]
  · rw [if_neg hfi] at he
    rw [he]
    exact hf

theorem updFile_matched {l : List BatchFile} {i : Nat} {g : BatchFile → BatchFile}
    {f' : BatchFile} (hf' : f' ∈ updFile l i g) (heq : f'.id = i) :
    ∃ f ∈ l, f.id = i ∧ f' = g f := by
  obtain ⟨f, hf, he⟩ := mem_updFile hf'
  by_cases hfi : f.id = i
  · rw [if_pos hfi] at he
    exact ⟨f, hf, hfi, he⟩
  · rw [if_neg hfi] at he
    rw [he] at heq
    exact absurd heq hfi

theorem updFile_filesUsed {s : Sys} (hs : Inv s) {i : Nat} {g : BatchFile → BatchFile}
    {f' : BatchFile} (hf' : f' ∈ updFile s.files i g)
    (hid : ∀ f, (g f).id = f.id) : f'.id ∈ s.usedIds := by
  obtain ⟨f, hf, he⟩ := mem_updFile hf'
  have hids : f'.id = f.id := by
    by_cases hfi : f.id = i
    · rw [if_pos hfi] at he; rw [he, hid]
    · rw [if_neg hfi] at he; rw [he]
  rw [hids]
  exact hs.filesUsed f hf

theorem activeJobs_updFile_eq (l : List BatchFile) (i : Nat) (g : BatchFile → BatchFile)
    (hall : ∀ f ∈ l,
      isActiveStatus (if f.id = i then g f else f).status = isActiveStatus f.status) :
    activeJobs (updFile l i g) = activeJobs l := by
  rw [activeJobs_eq_countP, activeJobs_eq_countP]
  exact countP_map_eq _ _ l hall

theorem activeJobs_updFile_le (l : List BatchFile) (i : Nat) (g : BatchFile → BatchFile)
    (hall : ∀ f ∈ l,
      isActiveStatus (if f.id = i then g f else f).status = true →
        isActiveStatus f.status = true) :
    activeJobs (updFile l i g) ≤ activeJobs l := by
  rw [activeJobs_eq_countP, activeJobs_eq_countP]
  exact countP_map_le _ _ l hall

theorem updFile_nodupIds {l : List BatchFile} {i : Nat} {g : BatchFile → BatchFile}
    (hg : ∀ f, (g f).id = f.id) (h : (l.map (fun f => f.id)).Nodup) :
    ((updFile l i g).map (fun f => f.id)).Nodup := by
  rw [updFile_map_ids hg]
  exact h

theorem inv_files_map_preserve {s : Sys} (hs : Inv s) (h : BatchFile → BatchFile)
    (hid : ∀ f, (h f).id = f.id) (hstat : ∀ f, (h f).status = f.status) :
    Inv { s with files := s.files.map h } := by
  refine ⟨?_, ?_, ?_, ?_, hs.pendNodup, hs.convUsed, hs.transUsed, ?_⟩
  · show ((s.files.map h).map (fun f => f.id)).Nodup
    rw [map_ids_of_preserve hid]
    exact hs.nodupIds
  · show ∀ f' ∈ s.files.map h, f'.id ∈ s.usedIds
    intro f' hf'
    obtain ⟨f, hf, he⟩ := List.mem_map.mp hf'
    rw [← he, hid]
    exact hs.filesUsed f hf
  · show ∀ i ∈ s.pendingConv, ∀ f' ∈ s.files.map h, f'.id = i → f'.status = .CONVERTING
    intro i hi f' hf' hfi
    obtain ⟨f, hf, he⟩ := List.mem_map.mp hf'
    rw [← he, hstat]
    exact hs.convStatus i hi f hf (by rw [← hid f, he, hfi])
  · show ∀ i ∈ s.pendingTrans, ∀ f' ∈ s.files.map h, f'.id = i → f'.status = .TRANSCRIBING
    intro i hi f' hf' hfi
    obtain ⟨f, hf, he⟩ := List.mem_map.mp hf'
    rw [← he, hstat]
    exact hs.transStatus i hi f hf (by rw [← hid f, he, hfi])
  · show activeJobs (s.files.map h) ≤ MAX_CONCURRENT_UPLOADS
    rw [activeJobs_eq_countP,
        countP_map_eq _ h s.files (fun f _ => by rw [hstat]),
        ← activeJobs_eq_countP]
    exact hs.bound

theorem inv_step {s s' : Sys} (hs : Inv s) (e : Event) (h : step e s = some s') :
    Inv s' := by
  cases e with
  | addFiles fs =>
    simp only [step] at h
    by_cases hc : (fs.map (fun nf => nf.id)).Nodup ∧ ∀ nf ∈ fs, nf.id ∉ s.usedIds
    · rw [if_pos hc] at h
      obtain rfl := Option.some.inj h
      have hnewids : (fs.map mkBatchFile).map (fun f => f.id) = fs.map (fun nf => nf.id) := by
        rw [List.map_map]; rfl
      refine ⟨?_, ?_, ?_, ?_, hs.pendNodup, ?_, ?_, ?_⟩
      · show ((s.files ++ fs.map mkBatchFile).map (fun f => f.id)).Nodup
        rw [List.map_append, hnewids, List.nodup_append]
        refine ⟨hs.nodupIds, hc.1, ?_⟩
        intro a ha hb
        obtain ⟨f, hf, he⟩ := List.mem_map.mp ha
        obtain ⟨nf, hnf, he2⟩ := List.mem_map.mp hb
        apply hc.2 nf hnf
        rw [he2]
        rw [← he]
        exact hs.filesUsed f hf
      · show ∀ f ∈ s.files ++ fs.map mkBatchFile, f.id ∈ s.usedIds ++ fs.map (fun nf => nf.id)
        intro f hf
        rcases List.mem_append.mp hf with hf | hf
        · exact List.mem_append_left _ (hs.filesUsed f hf)
        · obtain ⟨nf, hnf, he⟩ := List.mem_map.mp hf
          apply List.mem_append_right
          rw [← he]
          exact List.mem_map_of_mem (fun nf => nf.id) hnf
      · show ∀ i ∈ s.pendingConv, ∀ f ∈ s.files ++ fs.map mkBatchFile, f.id = i →
          f.status = .CONVERTING
        intro i hi f hf hfi
        rcases List.mem_append.mp hf with hf | hf
        · exact hs.convStatus i hi f hf hfi
        · obtain ⟨nf, hnf, he⟩ := List.mem_map.mp hf
          exfalso
          apply hc.2 nf hnf
          have : nf.id = i := by rw [← hfi, ← he]; rfl
          rw [this]
          exact hs.convUsed i hi
      · show ∀ i ∈ s.pendingTrans, ∀ f ∈ s.files ++ fs.map mkBatchFile, f.id = i →
          f.status = .TRANSCRIBING
        intro i hi f hf hfi
        rcases List.mem_append.mp hf with hf | hf
        · exact hs.transStatus i hi f hf hfi
        · obtain ⟨nf, hnf, he⟩ := List.mem_map.mp hf
          exfalso
          apply hc.2 nf hnf
          have : nf.id = i := by rw [← hfi, ← he]; rfl
          rw [this]
          exact hs.transUsed i hi
      · exact fun i hi => List.mem_append_left _ (hs.convUsed i hi)
      · exact fun i hi => List.mem_append_left _ (hs.transUsed i hi)
      · show activeJobs (s.files ++ fs.map mkBatchFile) ≤ MAX_CONCURRENT_UPLOADS
        rw [activeJobs_eq_countP, List.countP_append]
        have hz : (fs.map mkBatchFile).countP (fun f => isActiveStatus f.status) = 0 := by
          rw [List.countP_eq_zero]
          intro f hf
          obtain ⟨nf, hnf, he⟩ := List.mem_map.mp hf
          rw [← he]
          simp [mkBatchFile, isActiveStatus]
        rw [hz, Nat.add_zero, ← activeJobs_eq_countP]
        exact hs.bound
    · rw [if_neg hc] at h
      exact absurd h (by simp)
  | startQueue =>
    simp only [step] at h
    obtain rfl := Option.some.inj h
    exact ⟨hs.nodupIds, hs.filesUsed, hs.convStatus, hs.transStatus, hs.pendNodup,
           hs.convUsed, hs.transUsed, hs.bound⟩
  | startNext =>
    simp only [step] at h
    by_cases hc : s.isQueueActive = true ∧ activeJobs s.files < MAX_CONCURRENT_UPLOADS
    · rw [if_pos hc] at h
      cases hq : queuedJobs s.files with
      | nil =>
        rw [hq] at h
        dsimp only at h
        exact absurd h (by simp)
      | cons next rest =>
        rw [hq] at h
        dsimp only at h
        have hnextq : next ∈ queuedJobs s.files := by
          rw [hq]; exact List.mem_cons_self next rest
        have hnextf : next ∈ s.files := (List.mem_filter.mp hnextq).1
        have hnexts : next.status = .QUEUED :=
          of_decide_eq_true (List.mem_filter.mp hnextq).2
        have hnc : next.id ∉ s.pendingConv := by
          intro hmem
          have := hs.convStatus next.id hmem next hnextf rfl
          rw [hnexts] at this
          exact FileStatus.noConfusion this
        have hnt : next.id ∉ s.pendingTrans := by
          intro hmem
          have := hs.transStatus next.id hmem next hnextf rfl
          rw [hnexts] at this
          exact FileStatus.noConfusion this
        have hboundNew : ∀ g : BatchFile → BatchFile,
            activeJobs (updFile s.files next.id g) ≤ MAX_CONCURRENT_UPLOADS := by
          intro g
          rw [activeJobs_eq_countP]
          have h1 := countP_updFile_le_succ s.files next.id g
            (fun f => isActiveStatus f.status) hs.nodupIds
          have h2 := hc.2
          rw [activeJobs_eq_countP] at h2
          omega
        by_cases hn : Conv.needsConversion next.fileName = true
        · rw [if_pos hn] at h
          obtain rfl := Option.some.inj h
          refine ⟨?_, ?_, ?_, ?_, ?_, ?_, hs.transUsed, hboundNew _⟩
          · apply updFile_nodupIds
            · exact fun f => rfl
            · exact hs.nodupIds
          · intro f' hf'
            exact updFile_filesUsed hs hf' (fun f => rfl)
          · intro i hi f' hf' hfi
            rcases List.mem_cons.mp hi with hi | hi
            · subst hi
              obtain ⟨f, hf, hfid, he⟩ := updFile_matched hf' hfi
              rw [he]
            · have hine : next.id ≠ i := fun he => hnc (he ▸ hi)
              have hf'ne : f'.id ≠ next.id := by
                intro he
                rw [he] at hfi
                exact hine hfi
              exact hs.convStatus i hi f' (updFile_mem_of_ne hf' hf'ne (fun f => rfl)) hfi
          · intro i hi f' hf' hfi
            have hine : next.id ≠ i := fun he => hnt (he ▸ hi)
            have hf'ne : f'.id ≠ next.id := by
              intro he
              rw [he] at hfi
              exact hine hfi
            exact hs.transStatus i hi f' (updFile_mem_of_ne hf' hf'ne (fun f => rfl)) hfi
          · show ((next.id :: s.pendingConv) ++ s.pendingTrans).Nodup
            rw [List.cons_append, List.nodup_cons]
            refine ⟨?_, hs.pendNodup⟩
            intro hmem
            rcases List.mem_append.mp hmem with hmem | hmem
            · exact hnc hmem
            · exact hnt hmem
          · intro i hi
            rcases List.mem_cons.mp hi with hi | hi
            · rw [hi]; exact hs.filesUsed next hnextf
            · exact hs.convUsed i hi
        · rw [if_neg hn] at h
          obtain rfl := Option.some.inj h
          refine ⟨?_, ?_, ?_, ?_, ?_, hs.convUsed, ?_, hboundNew _⟩
          · apply updFile_nodupIds
            · exact fun f => rfl
            · exact hs.nodupIds
          · intro f' hf'
            exact updFile_filesUsed hs hf' (fun f => rfl)
          · intro i hi f' hf' hfi
            have hine : next.id ≠ i := fun he => hnc (he ▸ hi)
            have hf'ne : f'.id ≠ next.id := by
              intro he
              rw [he] at hfi
              exact hine hfi
            exact hs.convStatus i hi f' (updFile_mem_of_ne hf' hf'ne (fun f => rfl)) hfi
          · intro i hi f' hf' hfi
            rcases List.mem_cons.mp hi with hi | hi
            · subst hi
              obtain ⟨f, hf, hfid, he⟩ := updFile_matched hf' hfi
              rw [he]
            · have hine : next.id ≠ i := fun he => hnt (he ▸ hi)
              have hf'ne : f'.id ≠ next.id := by
                intro he
                rw [he] at hfi
                exact hine hfi
              exact hs.transStatus i hi f' (updFile_mem_of_ne hf' hf'ne (fun f => rfl)) hfi
          · show (s.pendingConv ++ (next.id :: s.pendingTrans)).Nodup
            have hpn := hs.pendNodup
            rw [List.nodup_append] at hpn ⊢
            refine ⟨hpn.1, ?_, ?_⟩
            · rw [List.nodup_cons]
              exact ⟨hnt, hpn.2.1⟩
            · intro a ha hmem
              rcases List.mem_cons.mp hmem with rfl | hmem
              · exact hnc ha
              · exact hpn.2.2 ha hmem
          · intro i hi
            rcases List.mem_cons.mp hi with hi | hi
            · rw [hi]; exact hs.filesUsed next hnextf
            · exact hs.transUsed i hi
    · rw [if_neg hc] at h
      exact absurd h (by simp)
  | durationResolved i d =>
    simp only [step] at h
    obtain rfl := Option.some.inj h
    exact inv_files_map_preserve hs _ (fun f => by by_cases hf : f.id = i <;> simp [hf])
      (fun f => by by_cases hf : f.id = i <;> simp [hf])
  | convProgress i p =>
    simp only [step] at h
    by_cases hc : i ∈ s.pendingConv ∧ p ∈ Conv.convertFileReports
    · rw [if_pos hc] at h
      obtain rfl := Option.some.inj h
      exact inv_files_map_preserve hs _ (fun f => by by_cases hf : f.id = i <;> simp [hf])
        (fun f => by by_cases hf : f.id = i <;> simp [hf])
    · rw [if_neg hc] at h
      exact absurd h (by simp)
  | convertDone i =>
    simp only [step] at h
    by_cases hc : i ∈ s.pendingConv ∧ Conv.convertFileOutcome = .resolved
    · rw [if_pos hc] at h
      obtain rfl := Option.some.inj h
      have hpn := hs.pendNodup
      rw [List.nodup_append] at hpn
      obtain ⟨hn1, hn2, hdisj⟩ := hpn
      have hint : i ∉ s.pendingTrans := fun hm => hdisj hc.1 hm
      refine ⟨?_, ?_, ?_, ?_, ?_, ?_, ?_, ?_⟩
      · apply updFile_nodupIds
        · exact fun f => rfl
        · exact hs.nodupIds
      · intro f' hf'
        exact updFile_filesUsed hs hf' (fun f => rfl)
      · intro j hj f' hf' hfi
        have hji : j ≠ i := (hn1.mem_erase_iff.mp hj).1
        have hjc : j ∈ s.pendingConv := (hn1.mem_erase_iff.mp hj).2
        have hf'ne : f'.id ≠ i := by
          intro he
          rw [he] at hfi
          exact hji hfi.symm
        exact hs.convStatus j hjc f' (updFile_mem_of_ne hf' hf'ne (fun f => rfl)) hfi
      · intro j hj f' hf' hfi
        rcases List.mem_cons.mp hj with rfl | hj
        · obtain ⟨f, hf, hfid, he⟩ := updFile_matched hf' hfi
          rw [he]
        · have hji : j ≠ i := by
            intro he
            rw [he] at hj
            exact hint hj
          have hf'ne : f'.id ≠ i := by
            intro he
            rw [he] at hfi
            exact hji hfi.symm
          exact hs.transStatus j hj f' (updFile_mem_of_ne hf' hf'ne (fun f => rfl)) hfi
      · show ((s.pendingConv.erase i) ++ (i :: s.pendingTrans)).Nodup
        rw [List.nodup_append]
        refine ⟨hn1.erase i, ?_, ?_⟩
        · rw [List.nodup_cons]
          exact ⟨hint, hn2⟩
        · intro a ha hmem
          have h1 : a ≠ i := (hn1.mem_erase_iff.mp ha).1
          have h2 : a ∈ s.pendingConv := (hn1.mem_erase_iff.mp ha).2
          rcases List.mem_cons.mp hmem with rfl | hmem
          · exact h1 rfl
          · exact hdisj h2 hmem
      · intro j hj
        exact hs.convUsed j (hn1.mem_erase_iff.mp hj).2
      · intro j hj
        rcases List.mem_cons.mp hj with rfl | hj
        · exact hs.convUsed j hc.1
        · exact hs.transUsed j hj
      · have heq := activeJobs_updFile_eq s.files i
          (fun f => { f with status := FileStatus.TRANSCRIBING, progress := 0 })
          (by
            intro f hf
            by_cases hfi : f.id = i
            · have hst := hs.convStatus i hc.1 f hf hfi
              rw [if_pos hfi, hst]
              rfl
            · rw [if_neg hfi])
        show activeJobs (updFile s.files i
          (fun f => { f with status := FileStatus.TRANSCRIBING, progress := 0 })) ≤
          MAX_CONCURRENT_UPLOADS
        rw [heq]
        exact hs.bound
    · rw [if_neg hc] at h
      exact absurd h (by simp)
  | convertFail i =>
    simp only [step] at h
    have hno : ¬ (i ∈ s.pendingConv ∧ Conv.convertFileOutcome = .rejected) :=
      fun hcc => absurd hcc.2 (by decide)
    rw [if_neg hno] at h
    exact absurd h (by simp)
  | transTick i r =>
    simp only [step] at h
    by_cases hc : i ∈ s.pendingTrans ∧ r < 3
    · rw [if_pos hc] at h
      obtain rfl := Option.some.inj h
      refine inv_files_map_preserve hs _ ?_ ?_ <;> intro f <;>
        by_cases hf : f.id = i ∧ f.status = .TRANSCRIBING <;> simp [hf]
    · rw [if_neg hc] at h
      exact absurd h (by simp)
  | transcribeOk i text =>
    simp only [step] at h
    by_cases hc : i ∈ s.pendingTrans
    · rw [if_pos hc] at h
      obtain rfl := Option.some.inj h
      have hpn := hs.pendNodup
      rw [List.nodup_append] at hpn
      obtain ⟨hn1, hn2, hdisj⟩ := hpn
      have hinc : i ∉ s.pendingConv := fun hm => hdisj hm hc
      refine ⟨?_, ?_, ?_, ?_, ?_, hs.convUsed, ?_, ?_⟩
      · apply updFile_nodupIds
        · exact fun f => rfl
        · exact hs.nodupIds
      · intro f' hf'
        exact updFile_filesUsed hs hf' (fun f => rfl)
      · intro j hj f' hf' hfi
        have hji : j ≠ i := by
          intro he
          rw [he] at hj
          exact hinc hj
        have hf'ne : f'.id ≠ i := by
          intro he
          rw [he] at hfi
          exact hji hfi.symm
        exact hs.convStatus j hj f' (updFile_mem_of_ne hf' hf'ne (fun f => rfl)) hfi
      · intro j hj f' hf' hfi
        have hji : j ≠ i := (hn2.mem_erase_iff.mp hj).1
        have hjt : j ∈ s.pendingTrans := (hn2.mem_erase_iff.mp hj).2
        have hf'ne : f'.id ≠ i := by
          intro he
          rw [he] at hfi
          exact hji hfi.symm
        exact hs.transStatus j hjt f' (updFile_mem_of_ne hf' hf'ne (fun f => rfl)) hfi
      · show (s.pendingConv ++ s.pendingTrans.erase i).Nodup
        exact hs.pendNodup.sublist ((List.erase_sublist i s.pendingTrans).append_left _)
      · intro j hj
        exact hs.transUsed j (hn2.mem_erase_iff.mp hj).2
      · have hle := activeJobs_updFile_le s.files i
          (fun f => { f with status := FileStatus.COMPLETED, transcript := text, progress := 100 })
          (by
            intro f hf
            by_cases hfi : f.id = i
            · rw [if_pos hfi]
              intro hfalse
              exact absurd hfalse (by simp [isActiveStatus])
            · rw [if_neg hfi]
              exact fun hx => hx)
        show activeJobs (updFile s.files i
          (fun f => { f with status := FileStatus.COMPLETED, transcript := text, progress := 100 })) ≤
          MAX_CONCURRENT_UPLOADS
        exact Nat.le_trans hle hs.bound
    · rw [if_neg hc] at h
      exact absurd h (by simp)
  | transcribeErr i msg =>
    simp only [step] at h
    by_cases hc : i ∈ s.pendingTrans
    · rw [if_pos hc] at h
      obtain rfl := Option.some.inj h
      have hpn := hs.pendNodup
      rw [List.nodup_append] at hpn
      obtain ⟨hn1, hn2, hdisj⟩ := hpn
      have hinc : i ∉ s.pendingConv := fun hm => hdisj hm hc
      refine ⟨?_, ?_, ?_, ?_, ?_, hs.convUsed, ?_, ?_⟩
      · apply updFile_nodupIds
        · exact fun f => rfl
        · exact hs.nodupIds
      · intro f' hf'
        exact updFile_filesUsed hs hf' (fun f => rfl)
      · intro j hj f' hf' hfi
        have hji : j ≠ i := by
          intro he
          rw [he] at hj
          exact hinc hj
        have hf'ne : f'.id ≠ i := by
          intro he
          rw [he] at hfi
          exact hji hfi.symm
        exact hs.convStatus j hj f' (updFile_mem_of_ne hf' hf'ne (fun f => rfl)) hfi
      · intro j hj f' hf' hfi
        have hji : j ≠ i := (hn2.mem_erase_iff.mp hj).1
        have hjt : j ∈ s.pendingTrans := (hn2.mem_erase_iff.mp hj).2
        have hf'ne : f'.id ≠ i := by
          intro he
          rw [he] at hfi
          exact hji hfi.symm
        exact hs.transStatus j hjt f' (updFile_mem_of_ne hf' hf'ne (fun f => rfl)) hfi
      · show (s.pendingConv ++ s.pendingTrans.erase i).Nodup
        exact hs.pendNodup.sublist ((List.erase_sublist i s.pendingTrans).append_left _)
      · intro j hj
        exact hs.transUsed j (hn2.mem_erase_iff.mp hj).2
      · have hle := activeJobs_updFile_le s.files i
          (fun f => { f with status := FileStatus.ERROR, error := some msg })
          (by
            intro f hf
            by_cases hfi : f.id = i
            · rw [if_pos hfi]
              intro hfalse
              exact absurd hfalse (by simp [isActiveStatus])
            · rw [if_neg hfi]
              exact fun hx => hx)
        show activeJobs (updFile s.files i
          (fun f => { f with status := FileStatus.ERROR, error := some msg })) ≤
          MAX_CONCURRENT_UPLOADS
        exact Nat.le_trans hle hs.bound
    · rw [if_neg hc] at h
      exact absurd h (by simp)
  | remove i =>
    simp only [step] at h
    obtain rfl := Option.some.inj h
    refine ⟨?_, ?_, ?_, ?_, hs.pendNodup, hs.convUsed, hs.transUsed, ?_⟩
    · show ((removeFile s.files i).map (fun f => f.id)).Nodup
      exact hs.nodupIds.sublist ((List.filter_sublist _).map _)
    · intro f hf
      exact hs.filesUsed f (List.mem_filter.mp hf).1
    · intro j hj f hf hfi
      exact hs.convStatus j hj f (List.mem_filter.mp hf).1 hfi
    · intro j hj f hf hfi
      exact hs.transStatus j hj f (List.mem_filter.mp hf).1 hfi
    · show activeJobs (removeFile s.files i) ≤ MAX_CONCURRENT_UPLOADS
      rw [activeJobs_eq_countP]
      simp only [removeFile]
      have h1 := countP_filter_le (fun f => isActiveStatus f.status)
        (fun f => decide (f.id ≠ i)) s.files
      have h2 := hs.bound
      rw [activeJobs_eq_countP] at h2
      omega

theorem reaches_inv {s s' : Sys} (hinv : Inv s) (h : Reaches s s') : Inv s' := by
  induction h with
  | refl => exact hinv
  | tail _ hstep ih =>
    obtain ⟨e, he⟩ := hstep
    exact inv_step ih e he

theorem reachable_inv {s : Sys} (h : Reachable s) : Inv s :=
  reaches_inv inv_init h

end Batch

namespace Batch

theorem map_no_leave {s : Sys} (hs : Inv s) {h : BatchFile → BatchFile}
    {f f' : BatchFile} (hf : f ∈ s.files) (hq : f.status = .QUEUED)
    (hf' : f' ∈ s.files.map h) (hfid : f'.id = f.id)
    (hid : ∀ x, (h x).id = x.id)
    (hstat : ∀ fx ∈ s.files, fx.status = .QUEUED → (h fx).status = .QUEUED) :
    f'.status = .QUEUED := by
  obtain ⟨fx, hfx, he⟩ := List.mem_map.mp hf'
  have hfxf : fx = f := by
    apply eq_of_mem_of_id_eq hs.nodupIds hfx hf
    rw [← hid fx, he, hfid]
  rw [← he, hfxf]
  exact hstat f hf hq

theorem leave_queued_bound {s s' : Sys} (hs : Inv s) (e : Event)
    (h : step e s = some s') {f f' : BatchFile} (hf : f ∈ s.files)
    (hq : f.status = .QUEUED) (hf' : f' ∈ s'.files) (hid : f'.id = f.id)
    (hq' : f'.status ≠ .QUEUED) :
    activeJobs s.files < MAX_CONCURRENT_UPLOADS := by
  cases e with
  | addFiles fs =>
    simp only [step] at h
    by_cases hc : (fs.map (fun nf => nf.id)).Nodup ∧ ∀ nf ∈ fs, nf.id ∉ s.usedIds
    · rw [if_pos hc] at h
      obtain rfl := Option.some.inj h
      exfalso
      rcases List.mem_append.mp hf' with h1 | h1
      · apply hq'
        have : f' = f := eq_of_mem_of_id_eq hs.nodupIds h1 hf hid
        rw [this, hq]
      · obtain ⟨nf, hnf, he⟩ := List.mem_map.mp h1
        apply hc.2 nf hnf
        have : nf.id = f.id := by rw [← hid, ← he]; rfl
        rw [this]
        exact hs.filesUsed f hf
    · rw [if_neg hc] at h
      exact absurd h (by simp)
  | startQueue =>
    simp only [step] at h
    obtain rfl := Option.some.inj h
    exfalso
    apply hq'
    have : f' = f := eq_of_mem_of_id_eq hs.nodupIds hf' hf hid
    rw [this, hq]
  | startNext =>
    simp only [step] at h
    by_cases hc : s.isQueueActive = true ∧ activeJobs s.files < MAX_CONCURRENT_UPLOADS
    · exact hc.2
    · rw [if_neg hc] at h
      exact absurd h (by simp)
  | durationResolved i d =>
    simp only [step] at h
    obtain rfl := Option.some.inj h
    refine absurd (map_no_leave hs hf hq hf' hid (fun x => ?_) (fun fx hfx hqx => ?_)) hq'
    · by_cases hx : x.id = i
      · rw [if_pos hx]
      · rw [if_neg hx]
    · by_cases hx : fx.id = i
      · rw [if_pos hx]; exact hqx
      · rw [if_neg hx]; exact hqx
  | convProgress i p =>
    simp only [step] at h
    by_cases hc : i ∈ s.pendingConv ∧ p ∈ Conv.convertFileReports
    · rw [if_pos hc] at h
      obtain rfl := Option.some.inj h
      refine absurd (map_no_leave hs hf hq hf' hid (fun x => ?_) (fun fx hfx hqx => ?_)) hq'
      · by_cases hx : x.id = i
        · rw [if_pos hx]
        · rw [if_neg hx]
      · by_cases hx : fx.id = i
        · rw [if_pos hx]; exact hqx
        · rw [if_neg hx]; exact hqx
    · rw [if_neg hc] at h
      exact absurd h (by simp)
  | convertDone i =>
    simp only [step] at h
    by_cases hc : i ∈ s.pendingConv ∧ Conv.convertFileOutcome = .resolved
    · rw [if_pos hc] at h
      obtain rfl := Option.some.inj h
      refine absurd (map_no_leave hs hf hq hf' hid (fun x => ?_) (fun fx hfx hqx => ?_)) hq'
      · by_cases hx : x.id = i
        · rw [if_pos hx]
        · rw [if_neg hx]
      · by_cases hx : fx.id = i
        · exfalso
          have := hs.convStatus i hc.1 fx hfx hx
          rw [hqx] at this
          exact FileStatus.noConfusion this
        · rw [if_neg hx]; exact hqx
    · rw [if_neg hc] at h
      exact absurd h (by simp)
  | convertFail i =>
    simp only [step] at h
    have hno : ¬ (i ∈ s.pendingConv ∧ Conv.convertFileOutcome = .rejected) :=
      fun hcc => absurd hcc.2 (by decide)
    rw [if_neg hno] at h
    exact absurd h (by simp)
  | transTick i r =>
    simp only [step] at h
    by_cases hc : i ∈ s.pendingTrans ∧ r < 3
    · rw [if_pos hc] at h
      obtain rfl := Option.some.inj h
      refine absurd (map_no_leave hs hf hq hf' hid (fun x => ?_) (fun fx hfx hqx => ?_)) hq'
      · by_cases hx : x.id = i ∧ x.status = .TRANSCRIBING
        · rw [if_pos hx]
        · rw [if_neg hx]
      · by_cases hx : fx.id = i ∧ fx.status = .TRANSCRIBING
        · rw [if_pos hx]; exact hqx
        · rw [if_neg hx]; exact hqx
    · rw [if_neg hc] at h
      exact absurd h (by simp)
  | transcribeOk i text =>
    simp only [step] at h
    by_cases hc : i ∈ s.pendingTrans
    · rw [if_pos hc] at h
      obtain rfl := Option.some.inj h
      refine absurd (map_no_leave hs hf hq hf' hid (fun x => ?_) (fun fx hfx hqx => ?_)) hq'
      · by_cases hx : x.id = i
        · rw [if_pos hx]
        · rw [if_neg hx]
      · by_cases hx : fx.id = i
        · exfalso
          have := hs.transStatus i hc fx hfx hx
          rw [hqx] at this
          exact FileStatus.noConfusion this
        · rw [if_neg hx]; exact hqx
    · rw [if_neg hc] at h
      exact absurd h (by simp)
  | transcribeErr i msg =>
    simp only [step] at h
    by_cases hc : i ∈ s.pendingTrans
    · rw [if_pos hc] at h
      obtain rfl := Option.some.inj h
      refine absurd (map_no_leave hs hf hq hf' hid (fun x => ?_) (fun fx hfx hqx => ?_)) hq'
      · by_cases hx : x.id = i
        · rw [if_pos hx]
        · rw [if_neg hx]
      · by_cases hx : fx.id = i
        · exfalso
          have := hs.transStatus i hc fx hfx hx
          rw [hqx] at this
          exact FileStatus.noConfusion this
        · rw [if_neg hx]; exact hqx
    · rw [if_neg hc] at h
      exact absurd h (by simp)
  | remove i =>
    simp only [step] at h
    obtain rfl := Option.some.inj h
    exfalso
    apply hq'
    have hmem : f' ∈ s.files := (List.mem_filter.mp hf').1
    have : f' = f := eq_of_mem_of_id_eq hs.nodupIds hmem hf hid
    rw [this, hq]

end Batch

namespace Batch

theorem queuedJobs_nodup_ids {s : Sys} (hs : Inv s) :
    ((queuedJobs s.files).map (fun f => f.id)).Nodup :=
  hs.nodupIds.sublist ((List.filter_sublist _).map _)

theorem monitor_starts_first {s s' : Sys} (hs : Inv s)
    (h : step Event.startNext s = some s') {A B : BatchFile}
    (hAB : [A, B].Sublist s.files) (hA : A.status = .QUEUED)
    (hB : B.status = .QUEUED) : B ∈ s'.files := by
  simp only [step] at h
  by_cases hc : s.isQueueActive = true ∧ activeJobs s.files < MAX_CONCURRENT_UPLOADS
  · rw [if_pos hc] at h
    cases hq : queuedJobs s.files with
    | nil =>
      rw [hq] at h
      dsimp only at h
      exact absurd h (by simp)
    | cons next rest =>
      rw [hq] at h
      dsimp only at h
      have hsubq : [A, B].Sublist (queuedJobs s.files) := by
        have h1 := hAB.filter (fun f => decide (f.status = FileStatus.QUEUED))
        rwa [show ([A, B].filter (fun f => decide (f.status = FileStatus.QUEUED))) = [A, B]
          from by simp [hA, hB]] at h1
      rw [hq] at hsubq
      have hBrest : B ∈ rest := by
        cases hsubq with
        | cons _ h1 => exact h1.subset (by simp)
        | cons₂ _ h1 => exact h1.subset (by simp)
      have hBne : B.id ≠ next.id := by
        have hqn := queuedJobs_nodup_ids hs
        rw [hq, List.map_cons, List.nodup_cons] at hqn
        intro he
        apply hqn.1
        rw [← he]
        exact List.mem_map_of_mem (fun f => f.id) hBrest
      have hBfiles : B ∈ s.files := hAB.subset (by simp)
      by_cases hn : Conv.needsConversion next.fileName = true
      · rw [if_pos hn] at h
        obtain rfl := Option.some.inj h
        show B ∈ updFile s.files next.id _
        have hmem := List.mem_map_of_mem
          (fun f => if f.id = next.id
            then { f with status := FileStatus.CONVERTING, progress := 0 } else f) hBfiles
        dsimp only at hmem
        rw [if_neg hBne] at hmem
        exact hmem
      · rw [if_neg hn] at h
        obtain rfl := Option.some.inj h
        show B ∈ updFile s.files next.id _
        have hmem := List.mem_map_of_mem
          (fun f => if f.id = next.id
            then { f with status := FileStatus.TRANSCRIBING, progress := 0 } else f) hBfiles
        dsimp only at hmem
        rw [if_neg hBne] at hmem
        exact hmem
  · rw [if_neg hc] at h
    exact absurd h (by simp)

theorem pair_sub_of_ids_eq {l l' : List BatchFile} {a b : Nat}
    (he : l'.map (fun f => f.id) = l.map (fun f => f.id))
    (hsub : [a, b].Sublist (l.map (fun f => f.id))) :
    [a, b].Sublist (l'.map (fun f => f.id)) := by
  rw [he]
  exact hsub

theorem removeFile_map_ids (l : List BatchFile) (i : Nat) :
    (removeFile l i).map (fun f => f.id) =
      (l.map (fun f => f.id)).filter (fun x => decide (x ≠ i)) := by
  induction l with
  | nil => rfl
  | cons a t ih =>
    show (List.filter (fun f => decide (f.id ≠ i)) (a :: t)).map (fun f => f.id) =
      List.filter (fun x => decide (x ≠ i)) ((a :: t).map (fun f => f.id))
    rw [List.map_cons, List.filter_cons, List.filter_cons]
    split
    · rw [List.map_cons]
      rw [show (List.filter (fun f => decide (f.id ≠ i)) t).map (fun f => f.id) =
        List.filter (fun x => decide (x ≠ i)) (t.map (fun f => f.id)) from ih]
    · exact ih

theorem step_preserves_pair_order {s s' : Sys} (e : Event)
    (h : step e s = some s') {a b : Nat}
    (hsub : [a, b].Sublist (s.files.map (fun f => f.id)))
    (ha : a ∈ s'.files.map (fun f => f.id)) (hb : b ∈ s'.files.map (fun f => f.id)) :
    [a, b].Sublist (s'.files.map (fun f => f.id)) := by
  cases e with
  | addFiles fs =>
    simp only [step] at h
    by_cases hc : (fs.map (fun nf => nf.id)).Nodup ∧ ∀ nf ∈ fs, nf.id ∉ s.usedIds
    · rw [if_pos hc] at h
      obtain rfl := Option.some.inj h
      show [a, b].Sublist ((s.files ++ fs.map mkBatchFile).map (fun f => f.id))
      rw [List.map_append]
      exact hsub.trans (List.sublist_append_left _ _)
    · rw [if_neg hc] at h
      exact absurd h (by simp)
  | startQueue =>
    simp only [step] at h
    obtain rfl := Option.some.inj h
    exact hsub
  | startNext =>
    simp only [step] at h
    by_cases hc : s.isQueueActive = true ∧ activeJobs s.files < MAX_CONCURRENT_UPLOADS
    · rw [if_pos hc] at h
      cases hq : queuedJobs s.files with
      | nil =>
        rw [hq] at h
        dsimp only at h
        exact absurd h (by simp)
      | cons next rest =>
        rw [hq] at h
        dsimp only at h
        by_cases hn : Conv.needsConversion next.fileName = true
        · rw [if_pos hn] at h
          obtain rfl := Option.some.inj h
          exact pair_sub_of_ids_eq (updFile_map_ids (fun x => rfl)) hsub
        · rw [if_neg hn] at h
          obtain rfl := Option.some.inj h
          exact pair_sub_of_ids_eq (updFile_map_ids (fun x => rfl)) hsub
    · rw [if_neg hc] at h
      exact absurd h (by simp)
  | durationResolved i d =>
    simp only [step] at h
    obtain rfl := Option.some.inj h
    exact pair_sub_of_ids_eq (updFile_map_ids (fun x => rfl)) hsub
  | convProgress i p =>
    simp only [step] at h
    by_cases hc : i ∈ s.pendingConv ∧ p ∈ Conv.convertFileReports
    · rw [if_pos hc] at h
      obtain rfl := Option.some.inj h
      exact pair_sub_of_ids_eq (updFile_map_ids (fun x => rfl)) hsub
    · rw [if_neg hc] at h
      exact absurd h (by simp)
  | convertDone i =>
    simp only [step] at h
    by_cases hc : i ∈ s.pendingConv ∧ Conv.convertFileOutcome = .resolved
    · rw [if_pos hc] at h
      obtain rfl := Option.some.inj h
      exact pair_sub_of_ids_eq (updFile_map_ids (fun x => rfl)) hsub
    · rw [if_neg hc] at h
      exact absurd h (by simp)
  | convertFail i =>
    simp only [step] at h
    have hno : ¬ (i ∈ s.pendingConv ∧ Conv.convertFileOutcome = .rejected) :=
      fun hcc => absurd hcc.2 (by decide)
    rw [if_neg hno] at h
    exact absurd h (by simp)
  | transTick i r =>
    simp only [step] at h
    by_cases hc : i ∈ s.pendingTrans ∧ r < 3
    · rw [if_pos hc] at h
      obtain rfl := Option.some.inj h
      refine pair_sub_of_ids_eq (map_ids_of_preserve (fun x => ?_) s.files) hsub
      by_cases hx : x.id = i ∧ x.status = .TRANSCRIBING
      · rw [if_pos hx]
      · rw [if_neg hx]
    · rw [if_neg hc] at h
      exact absurd h (by simp)
  | transcribeOk i text =>
    simp only [step] at h
    by_cases hc : i ∈ s.pendingTrans
    · rw [if_pos hc] at h
      obtain rfl := Option.some.inj h
      exact pair_sub_of_ids_eq (updFile_map_ids (fun x => rfl)) hsub
    · rw [if_neg hc] at h
      exact absurd h (by simp)
  | transcribeErr i msg =>
    simp only [step] at h
    by_cases hc : i ∈ s.pendingTrans
    · rw [if_pos hc] at h
      obtain rfl := Option.some.inj h
      exact pair_sub_of_ids_eq (updFile_map_ids (fun x => rfl)) hsub
    · rw [if_neg hc] at h
      exact absurd h (by simp)
  | remove i =>
    simp only [step] at h
    obtain rfl := Option.some.inj h
    have hane : a ≠ i := by
      have ha' := ha
      rw [show ({ s with files := removeFile s.files i } : Sys).files = removeFile s.files i
        from rfl, removeFile_map_ids] at ha'
      exact of_decide_eq_true (List.mem_filter.mp ha').2
    have hbne : b ≠ i := by
      have hb' := hb
      rw [show ({ s with files := removeFile s.files i } : Sys).files = removeFile s.files i
        from rfl, removeFile_map_ids] at hb'
      exact of_decide_eq_true (List.mem_filter.mp hb').2
    show [a, b].Sublist ((removeFile s.files i).map (fun f => f.id))
    rw [removeFile_map_ids]
    have h1 := hsub.filter (fun x => decide (x ≠ i))
    rwa [show ([a, b].filter (fun x => decide (x ≠ i))) = [a, b]
      from by simp [hane, hbne]] at h1

end Batch

namespace Store

theorem finalizeJobs_snd (l : List JobRecord) (a t : String) :
    (finalizeJobs l a t).2 = findOriginal l a := by
  induction l with
  | nil => rfl
  | cons j rest ih =>
    rw [finalizeJobs, findOriginal]
    by_cases hj : j.id = a
    · rw [if_pos hj, if_pos hj]
    · rw [if_neg hj, if_neg hj]
      exact ih

theorem finalizeJobs_fst_findOriginal (l : List JobRecord) (a t : String) :
    findOriginal (finalizeJobs l a t).1 a = findOriginal l a := by
  induction l with
  | nil => rfl
  | cons j rest ih =>
    rw [finalizeJobs]
    by_cases hj : j.id = a
    · rw [if_pos hj]
      show findOriginal ({ j with finalTranscript := t, status := .FINALIZED, charCountWithSpaces := t.length } :: rest) a = findOriginal (j :: rest) a
      rw [findOriginal, findOriginal, if_pos hj]
    · rw [if_neg hj]
      show findOriginal (j :: (finalizeJobs rest a t).1) a = findOriginal (j :: rest) a
      rw [findOriginal, findOriginal, if_neg hj, if_neg hj]
      exact ih

theorem findJob_finalizeJobs {l : List JobRecord} {a : String} {j : JobRecord}
    (h : findJob l a = some j) (t : String) :
    findJob (finalizeJobs l a t).1 a =
      some { j with finalTranscript := t, status := .FINALIZED,
                    charCountWithSpaces := t.length } := by
  induction l with
  | nil => exact absurd h (by rw [findJob]; simp)
  | cons k rest ih =>
    rw [findJob] at h
    rw [finalizeJobs]
    by_cases hk : k.id = a
    · rw [if_pos hk] at h
      have hkj := Option.some.inj h
      subst hkj
      rw [if_pos hk]
      show findJob ({ k with finalTranscript := t, status := .FINALIZED, charCountWithSpaces := t.length } :: rest) a = _
      rw [findJob]
      rw [show ({ k with finalTranscript := t, status := JobStatus.FINALIZED, charCountWithSpaces := t.length } : JobRecord).id = a from hk]
      rw [if_pos rfl]
    · rw [if_neg hk] at h
      rw [if_neg hk]
      show findJob (k :: (finalizeJobs rest a t).1) a = _
      rw [findJob, if_neg hk]
      exact ih h

theorem findOriginal_eq_findJob (l : List JobRecord) (a : String) :
    findOriginal l a = (findJob l a).map (fun j => j.originalTranscript) := by
  induction l with
  | nil => rfl
  | cons j rest ih =>
    rw [findOriginal, findJob]
    by_cases hj : j.id = a
    · rw [if_pos hj, if_pos hj]
      rfl
    · rw [if_neg hj, if_neg hj]
      exact ih

theorem finalizeJob_jobs_found {st : Storage} {jobId : String} {o : String}
    (hfind : findOriginal st.jobs jobId = some o) (t e : String) (ts : Nat) :
    (finalizeJob jobId t e ts st).jobs = (finalizeJobs st.jobs jobId t).1 := by
  rw [finalizeJob, finalizeJobs_snd, hfind]
  dsimp only
  by_cases hne : o ≠ t
  · rw [if_pos hne]
  · rw [if_neg hne]

theorem finalizeJob_learning_found {st : Storage} {jobId : String} {o : String}
    (hfind : findOriginal st.jobs jobId = some o) (t e : String) (ts : Nat) :
    (finalizeJob jobId t e ts st).learning =
      if o ≠ t then
        st.learning ++ [{ id := e, originalSnippet := String.mk (o.data.take 100),
                          correctedSnippet := String.mk (t.data.take 100),
                          timestamp := ts }]
      else st.learning := by
  rw [finalizeJob, finalizeJobs_snd, hfind]
  dsimp only
  by_cases hne : o ≠ t
  · rw [if_pos hne, if_pos hne]
  · rw [if_neg hne, if_neg hne]

end Store

namespace Batch

theorem filter_no_match {l : List BatchFile} {p : BatchFile → Bool}
    (h : ∀ f ∈ l, p f = false) : l.filter p = [] := by
  induction l with
  | nil => rfl
  | cons a t ih =>
    rw [List.filter_cons, h a (List.mem_cons_self a t), if_neg Bool.false_ne_true]
    exact ih (fun f hf => h f (List.mem_cons_of_mem a hf))

end Batch

/-- C1: in every reachable orchestrator state, at most MAX_CONCURRENT_UPLOADS
(3) items simultaneously hold CONVERTING or TRANSCRIBING status; and whenever a
step moves an item out of QUEUED (the same id is present afterwards with a
different status), fewer than 3 items were in those two states when it fired. -/
theorem C1_concurrency_bound (s : Batch.Sys) (hre : Batch.Reachable s) :
    Batch.activeJobs s.files ≤ Batch.MAX_CONCURRENT_UPLOADS ∧
    (∀ (e : Batch.Event) (s' : Batch.Sys), Batch.step e s = some s' →
      ∀ f ∈ s.files, f.status = Batch.FileStatus.QUEUED →
        ∀ f' ∈ s'.files, f'.id = f.id → f'.status ≠ Batch.FileStatus.QUEUED →
          Batch.activeJobs s.files < Batch.MAX_CONCURRENT_UPLOADS) := by
  have hinv := Batch.reachable_inv hre
  exact ⟨hinv.bound, fun e s' h f hf hq f' hf' hid hq' =>
    Batch.leave_queued_bound hinv e h hf hq hf' hid hq'⟩

/-- Witness for C1 at a concrete reachable state: one file is submitted and the
queue monitor admits it into TRANSCRIBING. -/
theorem C1_concurrency_bound_witness :
    Batch.activeJobs sysW1.files ≤ Batch.MAX_CONCURRENT_UPLOADS ∧
    Batch.activeJobs sysW1.files < Batch.MAX_CONCURRENT_UPLOADS := by
  have hre : Batch.Reachable sysW1 :=
    Relation.ReflTransGen.single ⟨Batch.Event.addFiles [nfW1], by decide⟩
  have h := C1_concurrency_bound sysW1 hre
  refine ⟨h.1, ?_⟩
  exact h.2 Batch.Event.startNext sysW2 (by decide) bfW1 (by decide) (by decide)
    bfW1t (by decide) (by decide) (by decide)

/-- C2 counterexample: in a reachable state, the transcription promise resolves
with raw service text "um hello period"; the completed item's transcript is
that raw text, which differs from the Text Normalizer's output "hello.", so the
batch transcript does NOT equal formatDictationText applied to the returned
text. -/
theorem C2_transcript_not_normalized_counterexample :
    Batch.Reaches Batch.initSys sysC2b ∧
    Batch.step (Batch.Event.transcribeOk 7 "um hello period") sysC2b = some sysC2c ∧
    sysC2c.files.map (fun f => f.transcript) = ["um hello period"] ∧
    Fmt.formatDictationText "um hello period" = "hello." ∧
    ("um hello period" : String) ≠ Fmt.formatDictationText "um hello period" := by
  refine ⟨?_, by decide, by decide, by decide, by decide⟩
  have h1 : Batch.Reaches Batch.initSys sysC2a :=
    Relation.ReflTransGen.single ⟨Batch.Event.addFiles [nfC2], by decide⟩
  exact Relation.ReflTransGen.tail h1 ⟨Batch.Event.startNext, by decide⟩

/-- C2 (amended): when a batch item's transcription succeeds, its status
becomes COMPLETED, its progress is set to 100, and its transcript equals the
RAW text returned by the transcription client — the Text Normalizer is not
applied on the batch path; formatDictationText is applied only to live
dictation fragments (the remote model is merely prompted to format). -/
theorem C2_completion_sets_raw_transcript (s : Batch.Sys) (i : Nat) (t : String)
    (s' : Batch.Sys) (h : Batch.step (Batch.Event.transcribeOk i t) s = some s') :
    (∀ f' ∈ s'.files, f'.id = i →
      f'.status = Batch.FileStatus.COMPLETED ∧ f'.progress = 100 ∧
        f'.transcript = t) ∧
    (∀ u : String, u ≠ "" →
      Live.liveHandleMessage (some u) false = [(Fmt.formatDictationText u, false)]) := by
  constructor
  · simp only [Batch.step] at h
    by_cases hc : i ∈ s.pendingTrans
    · rw [if_pos hc] at h
      obtain rfl := Option.some.inj h
      intro f' hf' hfi
      obtain ⟨f, hf, hfid, he⟩ := Batch.updFile_matched hf' hfi
      rw [he]
      exact ⟨rfl, rfl, rfl⟩
    · rw [if_neg hc] at h
      exact absurd h (by simp)
  · intro u hu
    simp [Live.liveHandleMessage, hu]

/-- Witness for the amended C2 at the concrete completion step. -/
theorem C2_completion_sets_raw_transcript_witness :
    bfC2c.status = Batch.FileStatus.COMPLETED ∧ bfC2c.progress = 100 ∧
      bfC2c.transcript = "um hello period" :=
  (C2_completion_sets_raw_transcript sysC2b 7 "um hello period" sysC2c
    (by decide)).1 bfC2c (by decide) (by decide)

/-- C3 counterexample: finalizing job "j1" (original transcript "a") with text
"b" creates one LearningEntry; finalizing again with the SAME text "b" creates
a second one, contradicting the claim that a repeat finalize with the same text
creates no additional LearningEntry. -/
theorem C3_finalize_repeat_counterexample :
    (Store.finalizeJob "j1" "b" "e1" 4 stC3).learning.length = 1 ∧
    (Store.finalizeJob "j1" "b" "e2" 5
      (Store.finalizeJob "j1" "b" "e1" 4 stC3)).learning.length = 2 := by
  exact ⟨by decide, by decide⟩

/-- C3 (amended): one finalize call sets the first matching job's status to
FINALIZED, overwrites its final transcript, and appends exactly one
LearningEntry when the finalize text differs from the original transcript (none
otherwise); a second finalize with the same text appends one more LearningEntry
under the same condition, because the diff is always taken against the original
transcript, which finalize never modifies. -/
theorem C3_finalize_behavior (st : Store.Storage) (jobId t e1 e2 : String)
    (ts1 ts2 : Nat) (j : Store.JobRecord)
    (hfind : Store.findJob st.jobs jobId = some j) :
    Store.findJob (Store.finalizeJob jobId t e1 ts1 st).jobs jobId =
      some { j with finalTranscript := t, status := .FINALIZED, charCountWithSpaces := t.length } ∧
    (Store.finalizeJob jobId t e1 ts1 st).learning.length =
      st.learning.length + (if j.originalTranscript ≠ t then 1 else 0) ∧
    (Store.finalizeJob jobId t e2 ts2 (Store.finalizeJob jobId t e1 ts1 st)).learning.length =
      (Store.finalizeJob jobId t e1 ts1 st).learning.length +
        (if j.originalTranscript ≠ t then 1 else 0) := by
  have horig : Store.findOriginal st.jobs jobId = some j.originalTranscript := by
    rw [Store.findOriginal_eq_findJob, hfind]
    rfl
  have hjobs1 := Store.finalizeJob_jobs_found horig t e1 ts1
  refine ⟨?_, ?_, ?_⟩
  · rw [hjobs1]
    exact Store.findJob_finalizeJobs hfind t
  · rw [Store.finalizeJob_learning_found horig t e1 ts1]
    by_cases hne : j.originalTranscript ≠ t
    · rw [if_pos hne, if_pos hne, List.length_append]
      rfl
    · rw [if_neg hne, if_neg hne, Nat.add_zero]
  · have horig1 : Store.findOriginal (Store.finalizeJob jobId t e1 ts1 st).jobs jobId =
        some j.originalTranscript := by
      rw [hjobs1, Store.finalizeJobs_fst_findOriginal]
      exact horig
    rw [Store.finalizeJob_learning_found horig1 t e2 ts2]
    by_cases hne : j.originalTranscript ≠ t
    · rw [if_pos hne, if_pos hne, List.length_append]
      rfl
    · rw [if_neg hne, if_neg hne, Nat.add_zero]

/-- Witness for the amended C3 at the concrete storage state. -/
theorem C3_finalize_behavior_witness :
    Store.findJob (Store.finalizeJob "j1" "b" "e1" 4 stC3).jobs "j1" =
      some { jobC3 with finalTranscript := "b", status := .FINALIZED,
                        charCountWithSpaces := String.length "b" } ∧
    (Store.finalizeJob "j1" "b" "e1" 4 stC3).learning.length =
      stC3.learning.length + (if jobC3.originalTranscript ≠ "b" then 1 else 0) ∧
    (Store.finalizeJob "j1" "b" "e2" 5
      (Store.finalizeJob "j1" "b" "e1" 4 stC3)).learning.length =
      (Store.finalizeJob "j1" "b" "e1" 4 stC3).learning.length +
        (if jobC3.originalTranscript ≠ "b" then 1 else 0) :=
  C3_finalize_behavior stC3 "j1" "b" "e1" "e2" 4 5 jobC3 (by decide)

/-- C4: any input larger than the fixed 20 MiB limit makes the transcription
client fail with the distinguishable size-limit error, with the network call
flag false (the remote generateContent call is never reached), regardless of
how the remote service would have behaved. -/
theorem C4_size_limit_rejects_before_network (fileSize : Nat)
    (net : Gem.NetBehavior) (h : fileSize > Gem.MAX_UPLOAD_BYTES) :
    Gem.transcribeAudioFile fileSize net = (Except.error Gem.sizeLimitMsg, false) ∧
    Gem.sizeLimitMsg ≠ Gem.genericTranscribeErrMsg := by
  constructor
  · simp only [Gem.transcribeAudioFile]
    rw [if_pos h]
  · decide

/-- Witness for C4: the spec's synthetic 25 MiB payload. -/
theorem C4_size_limit_rejects_before_network_witness :
    25 * 1024 * 1024 > Gem.MAX_UPLOAD_BYTES ∧
    (Gem.transcribeAudioFile (25 * 1024 * 1024) (Gem.NetBehavior.ok none) =
      (Except.error Gem.sizeLimitMsg, false) ∧
     Gem.sizeLimitMsg ≠ Gem.genericTranscribeErrMsg) :=
  ⟨by decide, C4_size_limit_rejects_before_network (25 * 1024 * 1024)
    (Gem.NetBehavior.ok none) (by decide)⟩

/-- C5 counterexample: the Text Normalizer is not idempotent. A double space
hides the spoken command "new paragraph" from the first pass (the command
regex runs before space collapsing); the first pass yields "new paragraph",
and a second pass rewrites that to a paragraph break which trim reduces to the
empty string. -/
theorem C5_normalizer_not_idempotent_counterexample :
    Fmt.formatDictationText "new  paragraph" = "new paragraph" ∧
    Fmt.formatDictationText (Fmt.formatDictationText "new  paragraph") = "" ∧
    Fmt.formatDictationText (Fmt.formatDictationText "new  paragraph") ≠
      Fmt.formatDictationText "new  paragraph" := by
  exact ⟨by decide, by decide, by decide⟩

/-- C5 (amended): the Text Normalizer is idempotent on representative inputs
whose single pass leaves no residual filler or command phrase — such as the
spec's round-trip examples — but not on all strings (see the counterexample,
where collapsing a double space exposes a command to the second pass). -/
theorem C5_normalizer_idempotent_on_representatives :
    (Fmt.formatDictationText (Fmt.formatDictationText "um I'll see the patient period") =
      Fmt.formatDictationText "um I'll see the patient period") ∧
    (Fmt.formatDictationText
        (Fmt.formatDictationText "you know the wound is healing comma continue dressing") =
      Fmt.formatDictationText "you know the wound is healing comma continue dressing") ∧
    (Fmt.formatDictationText
        (Fmt.formatDictationText "can't move new paragraph plan colon rest") =
      Fmt.formatDictationText "can't move new paragraph plan colon rest") ∧
    Fmt.formatDictationText "um I'll see the patient period" = "I will see the patient." := by
  exact ⟨by decide, by decide, by decide, by decide⟩

/-- C6: the admin (id "admin-1") uploads on behalf of doctor-1, so the item
carries ownerId "doctor-1"; yet the persisted JobRecord's owning user is
"admin-1" — saveJobRecord declares no fifth parameter, so the explicit owner
argument passed at the call site is silently dropped. The claim's intended
owner ("doctor-1") is never recorded. -/
theorem C6_explicit_owner_dropped :
    fileC6.ownerId = some "doctor-1" ∧
    (App.processFileSaveJob userC6 fileC6 "Patient is stable." "uuid-1"
      "20260101" 50 []).1.userId = "admin-1" ∧
    (App.processFileSaveJob userC6 fileC6 "Patient is stable." "uuid-1"
      "20260101" 50 []).1.userId ≠ "doctor-1" := by
  exact ⟨rfl, rfl, by decide⟩

/-- C7: after an item is removed from the list, the in-flight completion and
error handlers (id-keyed maps) are no-ops — the list is unchanged, so every
other item is untouched and no item with the removed id reappears; both
handlers are total functions, so no exception is modelled. -/
theorem C7_removal_in_flight_noop (files : List Batch.BatchFile) (i : Nat)
    (t msg : String) :
    Batch.applyTranscribeOk (Batch.removeFile files i) i t =
      Batch.removeFile files i ∧
    Batch.applyTranscribeErr (Batch.removeFile files i) i msg =
      Batch.removeFile files i ∧
    (Batch.removeFile files i).filter (fun f => decide (f.id = i)) = [] := by
  have hne : ∀ f ∈ Batch.removeFile files i, f.id ≠ i := by
    intro f hf
    exact of_decide_eq_true (List.mem_filter.mp hf).2
  refine ⟨Batch.updFile_eq_of_forall_ne _ hne, Batch.updFile_eq_of_forall_ne _ hne, ?_⟩
  exact Batch.filter_no_match (fun f hf => decide_eq_false (hne f hf))

/-- C8: in any reachable state, a queue-monitor admission starts only the first
QUEUED item in list order — any QUEUED item B preceded by another QUEUED item A
survives the admit step unchanged (still QUEUED) — and every orchestrator step
preserves the relative list order of the ids of surviving items, so submission
order is never reordered. -/
theorem C8_submission_order (s : Batch.Sys) (hre : Batch.Reachable s) :
    (∀ s' : Batch.Sys, Batch.step Batch.Event.startNext s = some s' →
      ∀ A B : Batch.BatchFile, [A, B].Sublist s.files →
        A.status = Batch.FileStatus.QUEUED → B.status = Batch.FileStatus.QUEUED →
        B ∈ s'.files) ∧
    (∀ (e : Batch.Event) (s' : Batch.Sys), Batch.step e s = some s' →
      ∀ a b : Nat, [a, b].Sublist (s.files.map (fun f => f.id)) →
        a ∈ s'.files.map (fun f => f.id) → b ∈ s'.files.map (fun f => f.id) →
        [a, b].Sublist (s'.files.map (fun f => f.id))) := by
  have hinv := Batch.reachable_inv hre
  exact ⟨fun s' h A B hAB hA hB => Batch.monitor_starts_first hinv h hAB hA hB,
         fun e s' h a b hsub ha hb => Batch.step_preserves_pair_order e h hsub ha hb⟩

/-- Witness for C8: two files submitted in order; the admit step starts the
first and leaves the second untouched, and id order 1 before 2 is preserved. -/
theorem C8_submission_order_witness :
    bfW8b ∈ sysW8'.files ∧ [1, 2].Sublist (sysW8'.files.map (fun f => f.id)) := by
  have hre : Batch.Reachable sysW8 :=
    Relation.ReflTransGen.single ⟨Batch.Event.addFiles [nfW8a, nfW8b], by decide⟩
  have h := C8_submission_order sysW8 hre
  constructor
  · exact h.1 sysW8' (by decide) bfW8a bfW8b (List.Sublist.refl _)
      (by decide) (by decide)
  · exact h.2 Batch.Event.startNext sysW8' (by decide) 1 2 (List.Sublist.refl _)
      (by decide) (by decide)

/-- C9: calling disconnect() before connect() resolves does NOT guarantee that
no microphone track remains active. In the run where disconnect() fires while
connect() is still awaiting getUserMedia, disconnect stops nothing (the stream
field is still null, and disconnect is total, so nothing throws); when
getUserMedia then resolves, the connect continuation stores the freshly
acquired stream and its track remains active. -/
theorem C9_disconnect_before_connect_leaks_mic :
    Live.connectStart Live.initLive = some liveW1 ∧
    liveW1.phase = Live.LivePhase.awaitingMic ∧
    Live.anyActiveTrack (Live.disconnect liveW1) = false ∧
    Live.micResolve (Live.disconnect liveW1) = some liveW3 ∧
    Live.anyActiveTrack liveW3 = true := by
  exact ⟨by decide, by decide, by decide, by decide, by decide⟩

/-- C10: the convertFile promise executor always resolves (after driving
progress to 100) and never invokes its reject callback, so the orchestrator's
conversion-failure branch — the only code that sets the "Conversion Failed"
error — is disabled in every state: the convertFail event can never fire. -/
theorem C10_conversion_never_fails (s : Batch.Sys) (i : Nat) :
    Conv.convertFileOutcome = Conv.PromiseOutcome.resolved ∧
    Conv.convertFileReports.getLast? = some 100 ∧
    Batch.step (Batch.Event.convertFail i) s = none := by
  refine ⟨by decide, by decide, ?_⟩
  simp only [Batch.step]
  have hno : ¬ (i ∈ s.pendingConv ∧
      Conv.convertFileOutcome = Conv.PromiseOutcome.rejected) :=
    fun hc => absurd hc.2 (by decide)
  rw [if_neg hno]
